import Mathlib

/-!
Verification of the reconciliation core of the cd60.nce Ansible collection
(`plugins/module_utils/nce_utils.py`, `nce_resource.py`, `nce_http.py`,
`helpers.py`).

JSON-like Python values (None, int, str, list, dict) are modelled by the

inductive type `JVal`.  Python dictionaries are association lists in
insertion order (CPython dicts preserve insertion order and have unique
keys).  Python `==` on such values is order-insensitive on dict keys; it is
modelled by equality of canonical forms (`canon`, which recursively sorts
dict entries), exactly the equivalence implemented by the module's
`_canon_key` (a `json.dumps(..., sort_keys=True)` serialization).  Python's
`sorted(..., key=_canon_key)` is a stable sort by a total preorder whose
equivalence classes are canonical-form equality; it is modelled by the
stable `List.insertionSort` over such a preorder (only equality of the
sorted lists is ever observed by the code, which is invariant under the
choice of the total order on canonical forms).

Fallible Python code (attribute errors on non-dicts, `module.fail_json`)
is modelled with `Except Abort`.  Booleans and floats do not occur in any
of the specified behaviours and are omitted from the value universe.
-/

/-- A JSON-like Python value: `None`, `int`, `str`, `list`, or `dict`
(association list in insertion order). -/
inductive JVal where
  | null : JVal
  | num (n : Int) : JVal
  | str (s : String) : JVal
  | arr (elems : List JVal) : JVal
  | obj (fields : List (String × JVal)) : JVal
deriving Repr

mutual
/-- Decidable structural equality on `JVal` (Python values are compared
structurally except for dict-key order, handled separately by `canon`). -/
def jvalDecEq : (a b : JVal) → Decidable (a = b)
  | .null, .null => isTrue rfl
  | .null, .num _ | .null, .str _ | .null, .arr _ | .null, .obj _
  | .num _, .null | .num _, .str _ | .num _, .arr _ | .num _, .obj _
  | .str _, .null | .str _, .num _ | .str _, .arr _ | .str _, .obj _
  | .arr _, .null | .arr _, .num _ | .arr _, .str _ | .arr _, .obj _
  | .obj _, .null | .obj _, .num _ | .obj _, .str _ | .obj _, .arr _ =>
      isFalse (fun h => JVal.noConfusion h)
  | .num a, .num b =>
      match decEq a b with
      | isTrue h => isTrue (by rw [h])
      | isFalse h => isFalse (fun he => h (JVal.num.inj he))
  | .str a, .str b =>
      match decEq a b with
      | isTrue h => isTrue (by rw [h])
      | isFalse h => isFalse (fun he => h (JVal.str.inj he))
  | .arr a, .arr b =>
      match jvalDecEqList a b with
      | isTrue h => isTrue (by rw [h])
      | isFalse h => isFalse (fun he => h (JVal.arr.inj he))
  | .obj a, .obj b =>
      match jvalDecEqKVs a b with
      | isTrue h => isTrue (by rw [h])
      | isFalse h => isFalse (fun he => h (JVal.obj.inj he))

/-- Decidable equality of `JVal` lists. -/
def jvalDecEqList : (a b : List JVal) → Decidable (a = b)
  | [], [] => isTrue rfl
  | [], _ :: _ => isFalse (fun h => List.noConfusion h)
  | _ :: _, [] => isFalse (fun h => List.noConfusion h)
  | x :: xs, y :: ys =>
      match jvalDecEq x y, jvalDecEqList xs ys with
      | isTrue h1, isTrue h2 => isTrue (by rw [h1, h2])
      | isFalse h1, _ => isFalse (fun he => h1 (List.cons.inj he).1)
      | _, isFalse h2 => isFalse (fun he => h2 (List.cons.inj he).2)

/-- Decidable equality of `JVal` association lists. -/
def jvalDecEqKVs : (a b : List (String × JVal)) → Decidable (a = b)
  | [], [] => isTrue rfl
  | [], _ :: _ => isFalse (fun h => List.noConfusion h)
  | _ :: _, [] => isFalse (fun h => List.noConfusion h)
  | (k, v) :: xs, (k2, v2) :: ys =>
      match decEq k k2, jvalDecEq v v2, jvalDecEqKVs xs ys with
      | isTrue h0, isTrue h1, isTrue h2 => isTrue (by rw [h0, h1, h2])
      | isFalse h0, _, _ =>
          isFalse (fun he => h0 (congrArg Prod.fst (List.cons.inj he).1))
      | _, isFalse h1, _ =>
          isFalse (fun he => h1 (congrArg Prod.snd (List.cons.inj he).1))
      | _, _, isFalse h2 => isFalse (fun he => h2 (List.cons.inj he).2)
end

instance : DecidableEq JVal := jvalDecEq

/-- Decidable equality of `Except` results (for evaluating the model on
concrete inputs). -/
instance {e a : Type} [DecidableEq e] [DecidableEq a] :
    DecidableEq (Except e a)
  | .ok x, .ok y =>
      match decEq x y with
      | isTrue h => isTrue (by rw [h])
      | isFalse h => isFalse (fun he => h (Except.ok.inj he))
  | .error x, .error y =>
      match decEq x y with
      | isTrue h => isTrue (by rw [h])
      | isFalse h => isFalse (fun he => h (Except.error.inj he))
  | .ok _, .error _ => isFalse (fun he => Except.noConfusion he)
  | .error _, .ok _ => isFalse (fun he => Except.noConfusion he)

/-- Python truthiness of a JSON-like value (`bool(v)`). -/
def pyTruthy : JVal → Bool
  | .null => false
  | .num n => n != 0
  | .str s => s ≠ ""
  | .arr xs => !xs.isEmpty
  | .obj kvs => !kvs.isEmpty

/-- Python `v or d`: `v` when truthy, else `d`. -/
def pyOrElse (v d : JVal) : JVal := if pyTruthy v then v else d

/-- Python `x.get(k)` on a dict modelled as a total function: first binding
of `k`, or `None` when absent or when `x` is not a dict (the fallible
version used where the source may raise is `dictGet` below). -/
def jget : JVal → String → JVal
  | .obj kvs, k => (List.lookup k kvs).getD .null
  | _, _ => .null

/-- Keys that should never be sent back to the API during updates
(`READONLY_KEYS` in nce_utils.py). -/
def READONLY_KEYS : List String :=
  ["id", "uuid", "createTime", "create_time", "createdAt",
   "updateTime", "update_time", "updatedAt"]

mutual
/-- `prune_unset` from nce_utils.py: remove dict entries whose value is
`None`, recursing into dicts and lists; keep empty lists/dicts. -/
def prune_unset : JVal → JVal
  | .obj kvs => .obj (pruneKVs kvs)
  | .arr xs => .arr (pruneList xs)
  | v => v

/-- Dict part of `prune_unset`: drop `None`-valued entries, prune the rest. -/
def pruneKVs : List (String × JVal) → List (String × JVal)
  | [] => []
  | (k, v) :: rest =>
      if v = .null then pruneKVs rest else (k, prune_unset v) :: pruneKVs rest

/-- List part of `prune_unset`: prune every element. -/
def pruneList : List JVal → List JVal
  | [] => []
  | v :: rest => prune_unset v :: pruneList rest
end

mutual
/-- `strip_readonly` from nce_utils.py: drop dict entries whose key is in
`ro`, recursing everywhere.  The readonly-key set is the first argument
(the source defaults it to `READONLY_KEYS`). -/
def strip_readonly (ro : List String) : JVal → JVal
  | .obj kvs => .obj (stripKVs ro kvs)
  | .arr xs => .arr (stripList ro xs)
  | v => v

/-- Dict part of `strip_readonly`. -/
def stripKVs (ro : List String) : List (String × JVal) → List (String × JVal)
  | [] => []
  | (k, v) :: rest =>
      if k ∈ ro then stripKVs ro rest
      else (k, strip_readonly ro v) :: stripKVs ro rest

/-- List part of `strip_readonly`. -/
def stripList (ro : List String) : List JVal → List JVal
  | [] => []
  | v :: rest => strip_readonly ro v :: stripList ro rest
end

/-- Replace the value of the first binding of `k` (Python `d[k] = v` when
`k in d`). -/
def setFirst : List (String × JVal) → String → JVal → List (String × JVal)
  | [], _, _ => []
  | (k0, v0) :: rest, k, v =>
      if k0 = k then (k0, v) :: rest else (k0, v0) :: setFirst rest k v

mutual
/-- `deep_merge` from nce_utils.py: merge `overlay` into `base` recursively
(overlay wins); `None` on either side yields the other; non-dict overlay
replaces. -/
def deep_merge : JVal → JVal → JVal
  | .null, overlay => overlay
  | base, .null => base
  | .obj xs, .obj ys => .obj (mergeKVs xs ys)
  | _, overlay => overlay
termination_by _ overlay => (sizeOf overlay, 0)

/-- Fold of `deep_merge`'s dict loop: for each overlay entry, update the
first matching binding in the accumulator (recursively merging) or append
it (Python dict insertion order). -/
def mergeKVs : List (String × JVal) → List (String × JVal) → List (String × JVal)
  | acc, [] => acc
  | acc, (k, v) :: rest =>
      match List.lookup k acc with
      | some old => mergeKVs (setFirst acc k (deep_merge old v)) rest
      | none => mergeKVs (acc ++ [(k, v)]) rest
termination_by acc l => (sizeOf l, 0)
end

/-- A comparison from a linear order (the shape of Python's three-way
comparison used by `sorted`). -/
def cmpOrd {α : Type} [LinearOrder α] (a b : α) : Ordering :=
  if a < b then .lt else if b < a then .gt else .eq

/-- Lexicographic comparison of character lists by code point (the order
Python uses on strings), kernel-computable. -/
def charListCmp : List Char → List Char → Ordering
  | [], [] => .eq
  | [], _ :: _ => .lt
  | _ :: _, [] => .gt
  | c :: cs, d :: ds => (cmpOrd c.toNat d.toNat).then (charListCmp cs ds)

/-- Total comparison of strings by their character data. -/
def strCmp (a b : String) : Ordering := charListCmp a.data b.data

/-- Constructor rank used to order values of different JSON types (any
fixed order works; only equality of sorted lists is observable). -/
def jrank : JVal → Nat
  | .null => 0
  | .num _ => 1
  | .str _ => 2
  | .arr _ => 3
  | .obj _ => 4

mutual
/-- A total structural comparison on `JVal`, the model of the
deterministic canonical sort key `_canon_key` (any total order whose
equivalence classes on canonical forms are equality works; see header). -/
def jcmp : JVal → JVal → Ordering
  | .null, .null => .eq
  | .num a, .num b => cmpOrd a b
  | .str a, .str b => strCmp a b
  | .arr a, .arr b => jcmpList a b
  | .obj a, .obj b => jcmpKVs a b
  | a, b => cmpOrd (jrank a) (jrank b)

/-- Lexicographic extension of `jcmp` to lists. -/
def jcmpList : List JVal → List JVal → Ordering
  | [], [] => .eq
  | [], _ :: _ => .lt
  | _ :: _, [] => .gt
  | a :: xs, b :: ys => (jcmp a b).then (jcmpList xs ys)

/-- Lexicographic extension of `jcmp` to association lists (key first,
then value). -/
def jcmpKVs : List (String × JVal) → List (String × JVal) → Ordering
  | [], [] => .eq
  | [], _ :: _ => .lt
  | _ :: _, [] => .gt
  | (k, v) :: xs, (k', v') :: ys =>
      (strCmp k k').then ((jcmp v v').then (jcmpKVs xs ys))
end

/-- The non-strict order induced by a three-way comparison. -/
def cmpLe {α : Type} (c : α → α → Ordering) (a b : α) : Prop := c a b ≠ .gt

instance {α : Type} (c : α → α → Ordering) : DecidableRel (cmpLe c) :=
  fun a b => inferInstanceAs (Decidable (c a b ≠ .gt))

/-- Three-way comparison on dict entries: key first, then value (the order
`json.dumps(..., sort_keys=True)` induces on entries of a dict with unique
keys). -/
def kvCmp (p q : String × JVal) : Ordering :=
  (strCmp p.1 q.1).then (jcmp p.2 q.2)

mutual
/-- Canonical form of a JSON-like value: recursively sort dict entries.
Two values are Python-`==`-equal exactly when their canonical forms are
equal; `_canon_key` in nce_utils.py is a serialization of this form. -/
def canon : JVal → JVal
  | .obj kvs => .obj (List.insertionSort (cmpLe kvCmp) (canonKVs kvs))
  | .arr xs => .arr (canonList xs)
  | v => v

/-- Canonicalize the values of dict entries (before sorting them). -/
def canonKVs : List (String × JVal) → List (String × JVal)
  | [] => []
  | (k, v) :: rest => (k, canon v) :: canonKVs rest

/-- Canonicalize every element of a list (element order is preserved:
Python `==` on lists is order-sensitive). -/
def canonList : List JVal → List JVal
  | [] => []
  | v :: rest => canon v :: canonList rest
end

/-- Python `==` on JSON-like values (order-insensitive on dict keys). -/
def pyEq (a b : JVal) : Prop := canon a = canon b

instance : DecidableRel pyEq := fun a b => inferInstanceAs (Decidable (_ = _))

/-- The order on list elements used by the Differ's unordered-list
comparison: compare canonical forms (the model of Python
`sorted(items, key=_canon_key)`). -/
def canonLe (a b : JVal) : Prop := cmpLe jcmp (canon a) (canon b)

instance : DecidableRel canonLe :=
  fun a b => inferInstanceAs (Decidable (cmpLe jcmp _ _))

/-- `_is_list_ordered` from nce_utils.py: a list at `path` (tuple of keys
from the root) is order-significant when the dotted join of the path is in
the ordered-list path set (empty/absent set: never). -/
def is_list_ordered (path olp : List String) : Bool :=
  if olp.isEmpty then false else decide ((String.intercalate "." path) ∈ olp)

mutual
/-- `normalize_for_compare` from nce_utils.py: normalize a structure for
idempotent comparison.  Dict values are normalized (path extended by the
key); lists are normalized elementwise (same path) and, when the path is
not in the ordered-list path set, sorted by the canonical key; scalars are
unchanged. -/
def normalize_for_compare (olp : List String) : JVal → List String → JVal
  | .obj kvs, path => .obj (normKVs olp kvs path)
  | .arr xs, path =>
      if is_list_ordered path olp then .arr (normList olp xs path)
      else .arr (List.insertionSort canonLe (normList olp xs path))
  | v, _ => v

/-- Dict part of `normalize_for_compare`. -/
def normKVs (olp : List String) :
    List (String × JVal) → List String → List (String × JVal)
  | [], _ => []
  | (k, v) :: rest, path =>
      (k, normalize_for_compare olp v (path ++ [k])) :: normKVs olp rest path

/-- List part of `normalize_for_compare` (elements keep the list's path). -/
def normList (olp : List String) : List JVal → List String → List JVal
  | [], _ => []
  | v :: rest, path =>
      normalize_for_compare olp v path :: normList olp rest path
end

/-- Abnormal termination of an operation: a Python `AttributeError`-style
crash on a non-dict (`typeErr`), or a `module.fail_json` for a missing
required name or an ambiguous match (with its reported preview and count). -/
inductive Abort where
  | typeErr : Abort
  | nameRequired : Abort
  | ambiguous (preview : List JVal) (count : Nat) : Abort
deriving DecidableEq, Repr

/-- Python `x.get(k)`: `None` default on a dict, `AttributeError` on
anything else. -/
def dictGet : JVal → String → Except Abort JVal
  | .obj kvs, k => .ok ((List.lookup k kvs).getD .null)
  | _, _ => .error .typeErr

mutual
/-- `subset_diff` from nce_utils.py: differences only for keys provided in
`desired`; the returned value `JVal.null` is Python's `None` ("no diff").
A dict `desired` walks its entries against `current or {}` (raising on a
truthy non-dict `current` once the first entry is examined); a list
`desired` compares normalized forms (Python `==`, modelled by equality of
canonical forms); a scalar compares directly. -/
def subset_diff (olp : List String) :
    JVal → JVal → List String → Except Abort JVal
  | current, .obj kvs, path => do
      let diff ← subsetKVs olp (pyOrElse current (.obj [])) kvs path
      .ok (if diff.isEmpty then .null else .obj diff)
  | current, .arr ds, path =>
      .ok (if canon (normalize_for_compare olp current path) =
              canon (normalize_for_compare olp (.arr ds) path)
           then .null else .arr ds)
  | current, d, _ => .ok (if current = d then .null else d)

/-- Dict loop of `subset_diff`: entries whose sub-diff is not `None`,
in desired order. -/
def subsetKVs (olp : List String) (cur : JVal) :
    List (String × JVal) → List String → Except Abort (List (String × JVal))
  | [], _ => .ok []
  | (k, v) :: rest, path => do
      let cv ← dictGet cur k
      let sub ← subset_diff olp cv v (path ++ [k])
      let tail ← subsetKVs olp cur rest path
      .ok (if sub = .null then tail else (k, sub) :: tail)
end

mutual
/-- The inner `_helper` of `build_before_after` from nce_utils.py: returns
the pair (before, after), where `(.null, .null)` is Python's
`(None, None)` ("no change"). -/
def bbHelper (olp : List String) :
    JVal → JVal → List String → Except Abort (JVal × JVal)
  | cur, .obj kvs, path => do
      let (bs, az) ← bbKVs olp (pyOrElse cur (.obj [])) kvs path
      if bs.isEmpty then .ok (.null, .null) else .ok (.obj bs, .obj az)
  | cur, .arr ds, path =>
      if canon (normalize_for_compare olp cur path) =
          canon (normalize_for_compare olp (.arr ds) path)
      then .ok (.null, .null) else .ok (cur, .arr ds)
  | cur, d, _ => if cur = d then .ok (.null, .null) else .ok (cur, d)

/-- Dict loop of `_helper`: before/after entries for members whose
sub-comparison reports a change (both sides always get the same keys). -/
def bbKVs (olp : List String) (cur : JVal) :
    List (String × JVal) → List String →
      Except Abort (List (String × JVal) × List (String × JVal))
  | [], _ => .ok ([], [])
  | (k, v) :: rest, path => do
      let cv ← dictGet cur k
      let (cb, ca) ← bbHelper olp cv v (path ++ [k])
      let (bt, st) ← bbKVs olp cur rest path
      if cb = .null ∧ ca = .null then .ok (bt, st)
      else .ok ((k, cb) :: bt, (k, ca) :: st)
end

/-- `build_before_after` from nce_utils.py: `None` when nothing changed,
else a dict with `before`/`after` (a side that is `None` is replaced by
`{}`). -/
def build_before_after (olp : List String) (current desired : JVal)
    (path : List String) : Except Abort JVal := do
  let (b, a) ← bbHelper olp current desired path
  if b = .null ∧ a = .null then .ok .null
  else
    .ok (.obj [("before", if b = .null then .obj [] else b),
               ("after", if a = .null then .obj [] else a)])

/-- Whether one record matches: with a non-empty selector every selector
pair must equal the record's field (Python `==`, raising on a non-dict
record); with an empty selector, a truthy `name_fallback` must equal the
record's `name`. -/
def recordMatches (sel : List (String × JVal)) (nameFb : JVal) (it : JVal) :
    Except Abort Bool :=
  match sel with
  | [] =>
      if pyTruthy nameFb then do
        let n ← dictGet it "name"
        .ok (decide (pyEq n nameFb))
      else .ok false
  | _ :: _ =>
      match it with
      | .obj kvs =>
          .ok (sel.all fun p => decide (pyEq ((List.lookup p.1 kvs).getD .null) p.2))
      | _ => .error .typeErr

/-- `find_candidates` from nce_resource.py, with the lazily paged record
sequence abstracted as the list of records the pager yields: all records
matching the selector (or the name fallback when the selector is empty). -/
def find_candidates (records : List JVal) (selector nameFb : JVal) :
    Except Abort (List JVal) := do
  let sel := pyOrElse selector (.obj [])
  let selKVs : List (String × JVal) := match sel with | .obj kvs => kvs | _ => []
  go selKVs records
where
  /-- Scan of the paged sequence accumulating matches in order. -/
  go (selKVs : List (String × JVal)) : List JVal → Except Abort (List JVal)
    | [] => .ok []
    | it :: rest => do
        let m ← recordMatches selKVs nameFb it
        let tail ← go selKVs rest
        .ok (if m then it :: tail else tail)

/-- The bounded field projection of one previewed record (`id`, `name`,
`city`, `timezone`, keeping only keys the record has).  Candidates are
always dicts when this is reached. -/
def previewRecord (it : JVal) : JVal :=
  match it with
  | .obj kvs =>
      .obj (["id", "name", "city", "timezone"].filterMap fun k =>
        match List.lookup k kvs with
        | some v => some (k, v)
        | none => none)
  | _ => .obj []

/-- `find_unique_or_fail` from nce_resource.py: `None` when nothing
matches, the unique match, or a `fail_json` carrying at most 5 previewed
matches and the total count. -/
def find_unique_or_fail (records : List JVal) (selector nameFb : JVal) :
    Except Abort JVal := do
  let candidates ← find_candidates records selector nameFb
  match candidates with
  | [] => .ok .null
  | [c] => .ok c
  | _ =>
      .error (.ambiguous ((candidates.take 5).map previewRecord)
        candidates.length)

/-- One observable call that crosses the client boundary during
`ensure_idempotent_state`: the (read-only) paged fetch backing the lookup,
or a mutating create/update/delete request.  A `create`/`update` records
the payload handed to the caller-supplied request builder
(`make_create_request` / `make_update_request`), which is immediately
followed by exactly one `post_json`/`put_json`/`delete_json` network
mutation. -/
inductive Eff where
  | fetch : Eff
  | create (payload : JVal) : Eff
  | update (objId : JVal) (payload : JVal) : Eff
  | delete (objId : JVal) : Eff
deriving DecidableEq, Repr

/-- Whether an effect is a mutating network request. -/
def Eff.isMutation : Eff → Bool
  | .fetch => false
  | _ => true

/-- The result dict of `ensure_idempotent_state`:
`{changed, diff, result, current}` (`JVal.null` is Python `None`). -/
structure EnsureResult where
  changed : Bool
  diff : JVal
  result : JVal
  current : JVal
deriving DecidableEq, Repr

/-- `ensure_idempotent_state` from nce_resource.py.  The environment is
abstracted as: `records` (what the paged fetch yields for this query),
`createResp`/`updateResp` (the JSON bodies the remote returns for the
create/update calls); `checkMode` is the module's dry-run flag.  Request
builders only shape paths/envelopes, so effects record their inputs (see
`Eff`).  The readonly-key set parameter keeps its source default
`READONLY_KEYS`.  Returns the result (or the abort) together with the
boundary effects in order. -/
def ensure_idempotent_state (checkMode : Bool) (records : List JVal)
    (selector desiredObject : JVal) (state : String) (idKey : String)
    (createResp updateResp : JVal) :
    Except Abort EnsureResult × List Eff :=
  let desired := prune_unset (pyOrElse desiredObject (.obj []))
  match dictGet desired "name" with
  | .error e => (.error e, [])
  | .ok name =>
    if ¬pyTruthy name then (.error .nameRequired, []) else
    let sel := prune_unset (pyOrElse selector (.obj []))
    match find_unique_or_fail records sel name with
    | .error e => (.error e, [.fetch])
    | .ok current =>
      if state = "absent" then
        if ¬pyTruthy current then
          (.ok ⟨false, .null, .null, .null⟩, [.fetch])
        else if checkMode then
          (.ok ⟨true, .null, strip_readonly READONLY_KEYS current, current⟩,
           [.fetch])
        else
          match dictGet current idKey with
          | .error e => (.error e, [.fetch])
          | .ok objId =>
              (.ok ⟨true, .null, .null, current⟩, [.fetch, .delete objId])
      else
        if ¬pyTruthy current then
          if checkMode then
            (.ok ⟨true, .obj [("before", .obj []), ("after", desired)],
                  .null, .null⟩, [.fetch])
          else
            (.ok ⟨true, .obj [("before", .obj []), ("after", desired)],
                  strip_readonly READONLY_KEYS createResp, .null⟩,
             [.fetch, .create desired])
        else
          let currentStripped := strip_readonly READONLY_KEYS current
          match build_before_after [] currentStripped desired [] with
          | .error e => (.error e, [.fetch])
          | .ok diffStruct =>
            if ¬pyTruthy diffStruct then
              (.ok ⟨false, .null, currentStripped, current⟩, [.fetch])
            else if checkMode then
              (.ok ⟨true, diffStruct, currentStripped, current⟩, [.fetch])
            else
              match dictGet current idKey with
              | .error e => (.error e, [.fetch])
              | .ok objId =>
                  (.ok ⟨true, diffStruct,
                        strip_readonly READONLY_KEYS updateResp, current⟩,
                   [.fetch, .update objId (deep_merge currentStripped desired)])

/-- The item-extraction step of `iter_paged` from nce_http.py: on a dict
response, the first extract key whose value is a list or dict; otherwise
the response itself. -/
def extractRaw (extractKeys : List String) (res : JVal) : JVal :=
  match res with
  | .obj kvs =>
      (extractKeys.findSome? fun k =>
        match List.lookup k kvs with
        | some (.arr xs) => some (JVal.arr xs)
        | some (.obj ys) => some (JVal.obj ys)
        | _ => none).getD res
  | _ => res

/-- The dict fallback of `iter_paged`: a dict of items is replaced by
`items.get("list") or items.get("data") or items.get("items") or []`
(first truthy wins, Python `or` chain). -/
def extractItems (extractKeys : List String) (res : JVal) : JVal :=
  match extractRaw extractKeys res with
  | .obj kvs =>
      pyOrElse (jget (.obj kvs) "list")
        (pyOrElse (jget (.obj kvs) "data") (pyOrElse (jget (.obj kvs) "items") (.arr [])))
  | v => v

/-- One page's yielded items: `none` when the loop breaks before yielding
(falsy items), otherwise the list (a non-list truthy value is wrapped as a
singleton). -/
def pageItems (extractKeys : List String) (res : JVal) : Option (List JVal) :=
  let items := extractItems extractKeys res
  if ¬pyTruthy items then none
  else match items with
    | .arr xs => some xs
    | v => some [v]

/-- The page loop of `iter_paged` from nce_http.py, with the remote pager
abstracted as `resp : pageIndex → response body` and the remaining
iterations of `while page_index < max_pages` as structural fuel.  Returns
the yielded items and the number of pages fetched (one GET per loop
iteration). -/
def iterPagedFrom (resp : Nat → JVal) (extractKeys : List String)
    (pageSize : Nat) : Nat → Nat → List JVal × Nat
  | 0, _ => ([], 0)
  | fuel + 1, pageIndex =>
      match pageItems extractKeys (resp pageIndex) with
      | none => ([], 1)
      | some its =>
          if its.length < pageSize then (its, 1)
          else
            let (restItems, pages) := iterPagedFrom resp extractKeys pageSize fuel (pageIndex + 1)
            (its ++ restItems, pages + 1)

/-- `iter_paged` (nce_http.py): starts at page 0 with the `max_pages`
safety cap (source default 1000). -/
def iter_paged (resp : Nat → JVal) (extractKeys : List String)
    (pageSize maxPages : Nat) : List JVal × Nat :=
  iterPagedFrom resp extractKeys pageSize maxPages 0

/-- The sites list of one response in `paged_get_sites` (helpers.py):
`resp.get('sites')`, defaulting to `[]` when missing or `None` (non-list
truthy shapes are out of the helper's contract and modelled as `[]`). -/
def sitesOf (res : JVal) : List JVal :=
  match jget res "sites" with
  | .arr xs => xs
  | _ => []

/-- The `totalRecords` bound of one response in `paged_get_sites`
(helpers.py): `resp.get('totalRecords', len(sites))`, with the same
length default when the value is not a number. -/
def totalOf (res : JVal) (sites : List JVal) : Int :=
  match jget res "totalRecords" with
  | .num n => n
  | _ => sites.length

/-- The `while True` accumulation loop of `paged_get_sites` (helpers.py),
which has no page cap: `none` means the given fuel was exhausted with the
loop still running.  One page is fetched per iteration; the loop stops
only when the accumulated count reaches `totalRecords` or a page has no
sites. -/
def pagedGetSitesFrom (resp : Nat → JVal) :
    Nat → Nat → List JVal → Option (List JVal)
  | 0, _, _ => none
  | fuel + 1, pageIndex, acc =>
      let res := resp pageIndex
      let sites := sitesOf res
      let total := totalOf res sites
      let acc' := acc ++ sites
      if total ≤ (acc'.length : Int) ∨ sites.isEmpty then some acc'
      else pagedGetSitesFrom resp fuel (pageIndex + 1) acc'

/-- `paged_get_sites` observed through bounded fuel: the loop from page 0
with empty accumulator. -/
def paged_get_sites (resp : Nat → JVal) (fuel : Nat) : Option (List JVal) :=
  pagedGetSitesFrom resp fuel 0 []

mutual
/-- `R` satisfies `D`: along every path present in `D`, `R`'s value is
Python-equal to `D`'s (leaves of `D` — scalars, lists, and explicitly
empty dicts — require Python equality; non-empty dicts recurse). -/
def sat : JVal → JVal → Bool
  | r, .obj [] => decide (canon r = canon (.obj []))
  | r, .obj kvs => satKVs r kvs
  | r, d => decide (canon r = canon d)

/-- `R` satisfies every entry of a desired dict. -/
def satKVs (r : JVal) : List (String × JVal) → Bool
  | [] => true
  | (k, v) :: rest => sat (jget r k) v && satKVs r rest
end

theorem cmpOrd_eq_lt {α : Type} [LinearOrder α] {a b : α} :
    cmpOrd a b = .lt ↔ a < b := by
  unfold cmpOrd; split <;> rename_i h
  · simp [h]
  · split <;> rename_i h' <;> simp [h, h']

theorem cmpOrd_eq_gt {α : Type} [LinearOrder α] {a b : α} :
    cmpOrd a b = .gt ↔ b < a := by
  unfold cmpOrd; split <;> rename_i h
  · simp [h, asymm h]
  · split <;> rename_i h' <;> simp [h, h']

theorem cmpOrd_eq_eq {α : Type} [LinearOrder α] {a b : α} :
    cmpOrd a b = .eq ↔ a = b := by
  unfold cmpOrd; split <;> rename_i h
  · simp [h, ne_of_lt h]
  · split <;> rename_i h'
    · simp [(ne_of_lt h').symm]
    · simp [le_antisymm (not_lt.mp h') (not_lt.mp h)]

theorem cmpOrd_swap {α : Type} [LinearOrder α] (a b : α) :
    (cmpOrd a b).swap = cmpOrd b a := by
  rcases lt_trichotomy a b with h | rfl | h
  · rw [show cmpOrd a b = .lt from cmpOrd_eq_lt.mpr h,
        show cmpOrd b a = .gt from cmpOrd_eq_gt.mpr h]; rfl
  · rw [show cmpOrd a a = .eq from cmpOrd_eq_eq.mpr rfl]; rfl
  · rw [show cmpOrd a b = .gt from cmpOrd_eq_gt.mpr h,
        show cmpOrd b a = .lt from cmpOrd_eq_lt.mpr h]; rfl

theorem cmpOrd_trans {α : Type} [LinearOrder α] {a b c : α} :
    cmpOrd a b = .lt → cmpOrd b c = .lt → cmpOrd a c = .lt := fun h1 h2 =>
  cmpOrd_eq_lt.mpr (lt_trans (cmpOrd_eq_lt.mp h1) (cmpOrd_eq_lt.mp h2))

theorem charListCmp_swap : ∀ (a b : List Char),
    (charListCmp a b).swap = charListCmp b a
  | [], [] => rfl
  | [], _ :: _ => rfl
  | _ :: _, [] => rfl
  | c :: cs, d :: ds => by
      simp only [charListCmp, Ordering.swap_then, cmpOrd_swap,
        charListCmp_swap cs ds]

theorem charListCmp_eq : ∀ {a b : List Char}, charListCmp a b = .eq → a = b
  | [], [], _ => rfl
  | c :: cs, d :: ds, h => by
      simp only [charListCmp, Ordering.then_eq_eq] at h
      have hc : c = d :=
        Char.eq_of_val_eq (UInt32.eq_of_toBitVec_eq
          (BitVec.eq_of_toNat_eq (cmpOrd_eq_eq.mp h.1)))
      rw [hc, charListCmp_eq h.2]

theorem charListCmp_trans : ∀ (a b c : List Char),
    charListCmp a b = .lt → charListCmp b c = .lt → charListCmp a c = .lt
  | [], [], _, h1, _ => absurd h1 (by simp [charListCmp])
  | [], _ :: _, [], _, h2 => absurd h2 (by simp [charListCmp])
  | [], _ :: _, _ :: _, _, _ => by simp [charListCmp]
  | _ :: _, [], _, h1, _ => absurd h1 (by simp [charListCmp])
  | _ :: _, _ :: _, [], _, h2 => absurd h2 (by simp [charListCmp])
  | x :: xs, y :: ys, z :: zs, h1, h2 => by
      simp only [charListCmp, Ordering.then_eq_lt] at h1 h2 ⊢
      rcases h1 with h1 | ⟨h1e, h1r⟩ <;> rcases h2 with h2 | ⟨h2e, h2r⟩
      · exact Or.inl (cmpOrd_trans h1 h2)
      · rw [cmpOrd_eq_eq.mp h2e] at h1; exact Or.inl h1
      · rw [← cmpOrd_eq_eq.mp h1e] at h2; exact Or.inl h2
      · rw [cmpOrd_eq_eq.mp h1e]
        exact Or.inr ⟨h2e, charListCmp_trans _ _ _ h1r h2r⟩

theorem strCmp_swap (a b : String) : (strCmp a b).swap = strCmp b a :=
  charListCmp_swap a.data b.data

theorem strCmp_eq {a b : String} (h : strCmp a b = .eq) : a = b :=
  String.ext (charListCmp_eq h)

theorem strCmp_trans {a b c : String} :
    strCmp a b = .lt → strCmp b c = .lt → strCmp a c = .lt :=
  charListCmp_trans a.data b.data c.data

mutual
theorem jcmp_swap : ∀ (a b : JVal), (jcmp a b).swap = jcmp b a
  | .null, .null => rfl
  | .num a, .num b => cmpOrd_swap a b
  | .str a, .str b => strCmp_swap a b
  | .arr a, .arr b => jcmpList_swap a b
  | .obj a, .obj b => jcmpKVs_swap a b
  | .null, .num _ | .null, .str _ | .null, .arr _ | .null, .obj _
  | .num _, .null | .num _, .str _ | .num _, .arr _ | .num _, .obj _
  | .str _, .null | .str _, .num _ | .str _, .arr _ | .str _, .obj _
  | .arr _, .null | .arr _, .num _ | .arr _, .str _ | .arr _, .obj _
  | .obj _, .null | .obj _, .num _ | .obj _, .str _ | .obj _, .arr _ => by
      simp only [jcmp]; exact cmpOrd_swap _ _

theorem jcmpList_swap : ∀ (a b : List JVal), (jcmpList a b).swap = jcmpList b a
  | [], [] => rfl
  | [], _ :: _ => rfl
  | _ :: _, [] => rfl
  | a :: xs, b :: ys => by
      simp only [jcmpList, Ordering.swap_then, jcmp_swap a b, jcmpList_swap xs ys]

theorem jcmpKVs_swap :
    ∀ (a b : List (String × JVal)), (jcmpKVs a b).swap = jcmpKVs b a
  | [], [] => rfl
  | [], _ :: _ => rfl
  | _ :: _, [] => rfl
  | (k, v) :: xs, (k', v') :: ys => by
      simp only [jcmpKVs, Ordering.swap_then, strCmp_swap k k',
        jcmp_swap v v', jcmpKVs_swap xs ys]
end

mutual
theorem jcmp_eq : ∀ {a b : JVal}, jcmp a b = .eq → a = b
  | .null, .null, _ => rfl
  | .num _, .num _, h => by rw [cmpOrd_eq_eq.mp h]
  | .str _, .str _, h => by rw [strCmp_eq h]
  | .arr _, .arr _, h => by rw [jcmpList_eq h]
  | .obj _, .obj _, h => by rw [jcmpKVs_eq h]
  | .null, .num _, h | .null, .str _, h | .null, .arr _, h | .null, .obj _, h
  | .num _, .null, h | .num _, .str _, h | .num _, .arr _, h | .num _, .obj _, h
  | .str _, .null, h | .str _, .num _, h | .str _, .arr _, h | .str _, .obj _, h
  | .arr _, .null, h | .arr _, .num _, h | .arr _, .str _, h | .arr _, .obj _, h
  | .obj _, .null, h | .obj _, .num _, h | .obj _, .str _, h | .obj _, .arr _, h => by
      simp only [jcmp, jrank] at h; exact absurd (cmpOrd_eq_eq.mp h) (by decide)

theorem jcmpList_eq : ∀ {a b : List JVal}, jcmpList a b = .eq → a = b
  | [], [], _ => rfl
  | a :: xs, b :: ys, h => by
      simp only [jcmpList, Ordering.then_eq_eq] at h
      rw [jcmp_eq h.1, jcmpList_eq h.2]

theorem jcmpKVs_eq : ∀ {a b : List (String × JVal)}, jcmpKVs a b = .eq → a = b
  | [], [], _ => rfl
  | (k, v) :: xs, (k', v') :: ys, h => by
      simp only [jcmpKVs, Ordering.then_eq_eq] at h
      rw [strCmp_eq h.1, jcmp_eq h.2.1, jcmpKVs_eq h.2.2]
end

mutual
theorem jcmp_trans :
    ∀ (a b c : JVal), jcmp a b = .lt → jcmp b c = .lt → jcmp a c = .lt :=
  fun a b c h1 h2 => by
    cases a <;> cases b <;> cases c <;>
      simp only [jcmp, jrank] at h1 h2 ⊢ <;>
      first
        | decide
        | exact absurd h1 (by decide)
        | exact absurd h2 (by decide)
        | exact cmpOrd_trans h1 h2
        | exact strCmp_trans h1 h2
        | exact jcmpList_trans _ _ _ h1 h2
        | exact jcmpKVs_trans _ _ _ h1 h2

theorem jcmpList_trans :
    ∀ (a b c : List JVal), jcmpList a b = .lt → jcmpList b c = .lt →
      jcmpList a c = .lt
  | [], [], _, h1, _ => absurd h1 (by simp [jcmpList])
  | [], _ :: _, [], _, h2 => absurd h2 (by simp [jcmpList])
  | [], _ :: _, _ :: _, _, _ => by simp [jcmpList]
  | _ :: _, [], _, h1, _ => absurd h1 (by simp [jcmpList])
  | _ :: _, _ :: _, [], _, h2 => absurd h2 (by simp [jcmpList])
  | x :: xs, y :: ys, z :: zs, h1, h2 => by
      simp only [jcmpList, Ordering.then_eq_lt] at h1 h2 ⊢
      rcases h1 with h1 | ⟨h1e, h1r⟩ <;> rcases h2 with h2 | ⟨h2e, h2r⟩
      · exact Or.inl (jcmp_trans _ _ _ h1 h2)
      · obtain rfl := jcmp_eq h2e; exact Or.inl h1
      · obtain rfl := jcmp_eq h1e; exact Or.inl h2
      · obtain rfl := jcmp_eq h1e
        exact Or.inr ⟨h2e, jcmpList_trans _ _ _ h1r h2r⟩

theorem jcmpKVs_trans :
    ∀ (a b c : List (String × JVal)), jcmpKVs a b = .lt → jcmpKVs b c = .lt →
      jcmpKVs a c = .lt
  | [], [], _, h1, _ => absurd h1 (by simp [jcmpKVs])
  | [], _ :: _, [], _, h2 => absurd h2 (by simp [jcmpKVs])
  | [], _ :: _, _ :: _, _, _ => by simp [jcmpKVs]
  | _ :: _, [], _, h1, _ => absurd h1 (by simp [jcmpKVs])
  | _ :: _, _ :: _, [], _, h2 => absurd h2 (by simp [jcmpKVs])
  | (k1, v1) :: xs, (k2, v2) :: ys, (k3, v3) :: zs, h1, h2 => by
      simp only [jcmpKVs, Ordering.then_eq_lt, Ordering.then_eq_eq] at h1 h2 ⊢
      rcases h1 with h1 | ⟨h1k, h1v | ⟨h1ve, h1r⟩⟩ <;>
        rcases h2 with h2 | ⟨h2k, h2v | ⟨h2ve, h2r⟩⟩
      · exact Or.inl (strCmp_trans h1 h2)
      · obtain rfl := strCmp_eq h2k; exact Or.inl h1
      · obtain rfl := strCmp_eq h2k; exact Or.inl h1
      · obtain rfl := strCmp_eq h1k; exact Or.inl h2
      · obtain rfl := strCmp_eq h1k
        exact Or.inr ⟨h2k, Or.inl (jcmp_trans _ _ _ h1v h2v)⟩
      · obtain rfl := strCmp_eq h1k
        obtain rfl := jcmp_eq h2ve
        exact Or.inr ⟨h2k, Or.inl h1v⟩
      · obtain rfl := strCmp_eq h1k; exact Or.inl h2
      · obtain rfl := strCmp_eq h1k
        obtain rfl := jcmp_eq h1ve
        exact Or.inr ⟨h2k, Or.inl h2v⟩
      · obtain rfl := strCmp_eq h1k
        obtain rfl := jcmp_eq h1ve
        exact Or.inr ⟨h2k, Or.inr ⟨h2ve, jcmpKVs_trans _ _ _ h1r h2r⟩⟩
end

theorem cmpLe_total {α : Type} {c : α → α → Ordering}
    (hswap : ∀ a b, (c a b).swap = c b a) (a b : α) :
    cmpLe c a b ∨ cmpLe c b a := by
  unfold cmpLe
  rcases h : c a b with _ | _ | _
  · exact Or.inl (by simp [h])
  · exact Or.inl (by simp [h])
  · refine Or.inr ?_
    rw [← hswap a b, h]
    simp [Ordering.swap]

theorem cmpLe_antisymm {α : Type} {c : α → α → Ordering}
    (hswap : ∀ a b, (c a b).swap = c b a)
    (heq : ∀ {a b : α}, c a b = .eq → a = b) {a b : α}
    (h1 : cmpLe c a b) (h2 : cmpLe c b a) : a = b := by
  unfold cmpLe at h1 h2
  rcases h : c a b with _ | _ | _
  · rw [← hswap a b, h] at h2; simp [Ordering.swap] at h2
  · exact heq h
  · exact absurd h h1

theorem cmpLe_trans {α : Type} {c : α → α → Ordering}
    (hswap : ∀ a b, (c a b).swap = c b a)
    (heq : ∀ {a b : α}, c a b = .eq → a = b)
    (htr : ∀ (a b c' : α), c a b = .lt → c b c' = .lt → c a c' = .lt)
    {a b d : α} (h1 : cmpLe c a b) (h2 : cmpLe c b d) : cmpLe c a d := by
  unfold cmpLe at h1 h2 ⊢
  rcases hab : c a b with _ | _ | _
  · rcases hbd : c b d with _ | _ | _
    · simp [htr _ _ _ hab hbd]
    · obtain rfl := heq hbd; simp [hab]
    · exact absurd hbd h2
  · obtain rfl := heq hab; exact h2
  · exact absurd hab h1

/-- Reflexivity of `cmpLe` for comparisons whose swap is an involution. -/
theorem cmpLe_refl {α : Type} {c : α → α → Ordering}
    (hswap : ∀ a b, (c a b).swap = c b a) (a : α) : cmpLe c a a := by
  unfold cmpLe
  rcases h : c a a with _ | _ | _ <;> intro hc
  · simp at hc
  · simp at hc
  · have := hswap a a
    rw [h] at this; simp [Ordering.swap] at this

instance : IsTotal JVal (cmpLe jcmp) := ⟨cmpLe_total jcmp_swap⟩

instance : IsTrans JVal (cmpLe jcmp) :=
  ⟨fun _ _ _ => cmpLe_trans jcmp_swap jcmp_eq jcmp_trans⟩

instance : IsAntisymm JVal (cmpLe jcmp) :=
  ⟨fun _ _ => cmpLe_antisymm jcmp_swap jcmp_eq⟩

theorem kvCmp_swap (p q : String × JVal) : (kvCmp p q).swap = kvCmp q p := by
  unfold kvCmp
  rw [Ordering.swap_then, strCmp_swap, jcmp_swap]

theorem kvCmp_eq : ∀ {p q : String × JVal}, kvCmp p q = .eq → p = q := by
  intro ⟨k1, v1⟩ ⟨k2, v2⟩ h
  unfold kvCmp at h
  rw [Ordering.then_eq_eq] at h
  have hk : k1 = k2 := strCmp_eq h.1
  have hv : v1 = v2 := jcmp_eq h.2
  rw [hk, hv]

theorem kvCmp_trans : ∀ (p q r : String × JVal),
    kvCmp p q = .lt → kvCmp q r = .lt → kvCmp p r = .lt := by
  intro ⟨k1, v1⟩ ⟨k2, v2⟩ ⟨k3, v3⟩ h1 h2
  unfold kvCmp at h1 h2 ⊢
  rw [Ordering.then_eq_lt] at h1 h2 ⊢
  rcases h1 with h1 | ⟨h1k, h1v⟩ <;> rcases h2 with h2 | ⟨h2k, h2v⟩
  · exact Or.inl (strCmp_trans h1 h2)
  · obtain rfl := strCmp_eq h2k; exact Or.inl h1
  · obtain rfl := strCmp_eq h1k; exact Or.inl h2
  · obtain rfl := strCmp_eq h1k
    exact Or.inr ⟨h2k, jcmp_trans _ _ _ h1v h2v⟩

instance : IsTotal (String × JVal) (cmpLe kvCmp) := ⟨cmpLe_total kvCmp_swap⟩

instance : IsTrans (String × JVal) (cmpLe kvCmp) :=
  ⟨fun _ _ _ => cmpLe_trans kvCmp_swap kvCmp_eq kvCmp_trans⟩

instance : IsAntisymm (String × JVal) (cmpLe kvCmp) :=
  ⟨fun _ _ => cmpLe_antisymm kvCmp_swap kvCmp_eq⟩

instance : IsTotal JVal canonLe := ⟨fun a b => cmpLe_total jcmp_swap _ _⟩

instance : IsTrans JVal canonLe :=
  ⟨fun _ _ _ => cmpLe_trans jcmp_swap jcmp_eq jcmp_trans⟩

/-- Sorting by a total, transitive, antisymmetric relation is invariant
under permutation of the input (sorted representatives of multisets are
unique). -/
theorem insertionSort_perm_congr {α : Type} {r : α → α → Prop} [DecidableRel r]
    [IsTotal α r] [IsTrans α r] [IsAntisymm α r] {l l' : List α}
    (h : l.Perm l') : List.insertionSort r l = List.insertionSort r l' :=
  List.eq_of_perm_of_sorted
    ((List.perm_insertionSort r l).trans (h.trans (List.perm_insertionSort r l').symm))
    (List.sorted_insertionSort r l) (List.sorted_insertionSort r l')

theorem canonList_eq_self : ∀ {l : List JVal}, (∀ v ∈ l, canon v = v) →
    canonList l = l
  | [], _ => rfl
  | v :: rest, h => by
      rw [canonList, h v (by simp), canonList_eq_self (fun w hw => h w (by simp [hw]))]

theorem canonKVs_eq_self : ∀ {l : List (String × JVal)},
    (∀ p ∈ l, canon p.2 = p.2) → canonKVs l = l
  | [], _ => rfl
  | (k, v) :: rest, h => by
      rw [canonKVs, show canon v = v from h (k, v) (by simp),
        canonKVs_eq_self (fun w hw => h w (by simp [hw]))]

mutual
theorem canon_idem : ∀ (v : JVal), canon (canon v) = canon v
  | .null | .num _ | .str _ => rfl
  | .arr xs => by
      rw [canon, canon, canonList_eq_self (canonList_vals xs)]
  | .obj kvs => by
      rw [canon, canon, canonKVs_eq_self (fun p hp =>
        canonKVs_vals kvs p ((List.perm_insertionSort (cmpLe kvCmp) _).mem_iff.mp hp))]
      rw [List.Sorted.insertionSort_eq (List.sorted_insertionSort (cmpLe kvCmp) _)]

theorem canonList_vals : ∀ (l : List JVal) (v : JVal), v ∈ canonList l → canon v = v
  | w :: rest, v, hv => by
      rw [canonList] at hv
      rcases List.mem_cons.mp hv with rfl | hv
      · exact canon_idem w
      · exact canonList_vals rest v hv

theorem canonKVs_vals : ∀ (l : List (String × JVal)) (p : String × JVal),
    p ∈ canonKVs l → canon p.2 = p.2
  | (k, w) :: rest, p, hp => by
      rw [canonKVs] at hp
      rcases List.mem_cons.mp hp with rfl | hp
      · exact canon_idem w
      · exact canonKVs_vals rest p hp
end

theorem canonList_eq_map : ∀ (l : List JVal), canonList l = l.map canon
  | [] => rfl
  | v :: rest => by rw [canonList, canonList_eq_map rest, List.map_cons]

theorem canonKVs_eq_map : ∀ (l : List (String × JVal)),
    canonKVs l = l.map (fun p => (p.1, canon p.2))
  | [] => rfl
  | (k, v) :: rest => by rw [canonKVs, canonKVs_eq_map rest, List.map_cons]

theorem normList_eq_map (olp : List String) :
    ∀ (l : List JVal) (p : List String),
      normList olp l p = l.map (fun v => normalize_for_compare olp v p)
  | [], _ => rfl
  | v :: rest, p => by rw [normList, normList_eq_map olp rest p, List.map_cons]

theorem normKVs_eq_map (olp : List String) :
    ∀ (l : List (String × JVal)) (p : List String),
      normKVs olp l p =
        l.map (fun q => (q.1, normalize_for_compare olp q.2 (p ++ [q.1])))
  | [], _ => rfl
  | (k, v) :: rest, p => by rw [normKVs, normKVs_eq_map olp rest p, List.map_cons]

theorem pruneList_eq_map : ∀ (l : List JVal), pruneList l = l.map prune_unset
  | [] => rfl
  | v :: rest => by rw [pruneList, pruneList_eq_map rest, List.map_cons]

theorem pruneKVs_eq_filterMap : ∀ (l : List (String × JVal)),
    pruneKVs l = l.filterMap
      (fun p => if p.2 = .null then none else some (p.1, prune_unset p.2))
  | [] => rfl
  | (k, v) :: rest => by
      rw [pruneKVs, pruneKVs_eq_filterMap rest, List.filterMap_cons]
      by_cases h : v = .null <;> simp [h]

theorem stripList_eq_map (ro : List String) :
    ∀ (l : List JVal), stripList ro l = l.map (strip_readonly ro)
  | [] => rfl
  | v :: rest => by rw [stripList, stripList_eq_map ro rest, List.map_cons]

theorem stripKVs_eq_filterMap (ro : List String) : ∀ (l : List (String × JVal)),
    stripKVs ro l = l.filterMap
      (fun p => if p.1 ∈ ro then none else some (p.1, strip_readonly ro p.2))
  | [] => rfl
  | (k, v) :: rest => by
      rw [stripKVs, stripKVs_eq_filterMap ro rest, List.filterMap_cons]
      by_cases h : k ∈ ro <;> simp [h]

/-- Mapping canonicalization over the unordered-list sort equals sorting
the canonical images (the order compares only canonical forms, and is
antisymmetric on them). -/
theorem map_canon_insertionSort (items : List JVal) :
    (List.insertionSort canonLe items).map canon =
      List.insertionSort (cmpLe jcmp) (items.map canon) := by
  apply List.eq_of_perm_of_sorted (r := cmpLe jcmp)
  · exact ((List.perm_insertionSort canonLe items).map canon).trans
      ((List.perm_insertionSort (cmpLe jcmp) _).symm)
  · exact List.Pairwise.map _ (fun a b h => h)
      (List.sorted_insertionSort canonLe items)
  · exact List.sorted_insertionSort _ _

/-- Two lists have equal sorts exactly when they are permutations of each
other (for a total, transitive, antisymmetric order). -/
theorem insertionSort_eq_iff_perm {α : Type} {r : α → α → Prop} [DecidableRel r]
    [IsTotal α r] [IsTrans α r] [IsAntisymm α r] {l l' : List α} :
    List.insertionSort r l = List.insertionSort r l' ↔ l.Perm l' := by
  constructor
  · intro h
    exact (List.perm_insertionSort r l).symm.trans
      (h ▸ List.perm_insertionSort r l')
  · exact insertionSort_perm_congr

theorem canon_arr (xs : List JVal) : canon (.arr xs) = .arr (xs.map canon) := by
  rw [canon, canonList_eq_map]

theorem canon_obj (kvs : List (String × JVal)) :
    canon (.obj kvs) =
      .obj (List.insertionSort (cmpLe kvCmp) (kvs.map fun p => (p.1, canon p.2))) := by
  rw [canon, canonKVs_eq_map]

theorem norm_arr (olp : List String) (xs : List JVal) (p : List String) :
    normalize_for_compare olp (.arr xs) p =
      if is_list_ordered p olp then
        .arr (xs.map (fun v => normalize_for_compare olp v p))
      else
        .arr (List.insertionSort canonLe
          (xs.map (fun v => normalize_for_compare olp v p))) := by
  rw [normalize_for_compare, normList_eq_map]

theorem norm_obj (olp : List String) (kvs : List (String × JVal)) (p : List String) :
    normalize_for_compare olp (.obj kvs) p =
      .obj (kvs.map fun q => (q.1, normalize_for_compare olp q.2 (p ++ [q.1]))) := by
  rw [normalize_for_compare, normKVs_eq_map]

mutual
theorem canon_norm_canon (olp : List String) :
    ∀ (v : JVal) (p : List String),
      canon (normalize_for_compare olp (canon v) p) =
        canon (normalize_for_compare olp v p)
  | .null, _ => rfl
  | .num _, _ => rfl
  | .str _, _ => rfl
  | .arr xs, p => by
      rw [canon_arr, norm_arr, norm_arr]
      by_cases h : is_list_ordered p olp
      · rw [if_pos h, if_pos h, canon_arr, canon_arr, List.map_map,
          List.map_map]
        have hl := canon_norm_canon_list olp xs p
        simp only [Function.comp_def]
        rw [hl, List.map_map]
        simp only [Function.comp_def]
      · rw [if_neg h, if_neg h, canon_arr, canon_arr,
          map_canon_insertionSort, map_canon_insertionSort, List.map_map,
          List.map_map]
        have hl := canon_norm_canon_list olp xs p
        simp only [Function.comp_def]
        rw [hl, List.map_map]
        simp only [Function.comp_def]
  | .obj kvs, p => by
      rw [canon_obj, norm_obj, norm_obj, canon_obj, canon_obj, List.map_map,
        List.map_map]
      congr 1
      apply insertionSort_perm_congr
      have hperm :
          (List.insertionSort (cmpLe kvCmp) (kvs.map fun q => (q.1, canon q.2))).Perm
            (kvs.map fun q => (q.1, canon q.2)) :=
        List.perm_insertionSort _ _
      refine (hperm.map _).trans ?_
      rw [List.map_map]
      have hk := canon_norm_canon_kvs olp kvs p
      simp only [Function.comp_def]
      rw [hk]

theorem canon_norm_canon_list (olp : List String) :
    ∀ (xs : List JVal) (p : List String),
      xs.map (fun v => canon (normalize_for_compare olp (canon v) p)) =
        xs.map (fun v => canon (normalize_for_compare olp v p))
  | [], _ => rfl
  | v :: rest, p => by
      rw [List.map_cons, List.map_cons, canon_norm_canon olp v p,
        canon_norm_canon_list olp rest p]

theorem canon_norm_canon_kvs (olp : List String) :
    ∀ (kvs : List (String × JVal)) (p : List String),
      kvs.map (fun q =>
          (q.1, canon (normalize_for_compare olp (canon q.2) (p ++ [q.1])))) =
        kvs.map (fun q =>
          (q.1, canon (normalize_for_compare olp q.2 (p ++ [q.1]))))
  | [], _ => rfl
  | (k, v) :: rest, p => by
      rw [List.map_cons, List.map_cons]
      simp only
      rw [canon_norm_canon olp v (p ++ [k]), canon_norm_canon_kvs olp rest p]
end

/-- Python-equal values normalize to Python-equal values: the congruence
behind idempotent comparison. -/
theorem canon_norm_congr {a b : JVal} (olp : List String) (p : List String)
    (h : canon a = canon b) :
    canon (normalize_for_compare olp a p) =
      canon (normalize_for_compare olp b p) := by
  rw [← canon_norm_canon olp a p, h, canon_norm_canon olp b p]

theorem strip_arr (ro : List String) (xs : List JVal) :
    strip_readonly ro (.arr xs) = .arr (xs.map (strip_readonly ro)) := by
  rw [strip_readonly, stripList_eq_map]

theorem strip_obj (ro : List String) (kvs : List (String × JVal)) :
    strip_readonly ro (.obj kvs) = .obj (kvs.filterMap
      (fun p => if p.1 ∈ ro then none else some (p.1, strip_readonly ro p.2))) := by
  rw [strip_readonly, stripKVs_eq_filterMap]

mutual
theorem canon_strip_canon (ro : List String) :
    ∀ (v : JVal),
      canon (strip_readonly ro (canon v)) = canon (strip_readonly ro v)
  | .null => rfl
  | .num _ => rfl
  | .str _ => rfl
  | .arr xs => by
      rw [canon_arr, strip_arr, strip_arr, canon_arr, canon_arr, List.map_map,
        List.map_map, List.map_map]
      simp only [Function.comp_def]
      exact congrArg _
        (List.map_congr_left fun v hv => canon_strip_canon_mem ro xs v hv)
  | .obj kvs => by
      rw [canon_obj, strip_obj, strip_obj, canon_obj, canon_obj]
      congr 1
      apply insertionSort_perm_congr
      have h1 : (List.filterMap
            (fun p => if p.1 ∈ ro then none else some (p.1, strip_readonly ro p.2))
            (List.insertionSort (cmpLe kvCmp) (kvs.map fun p => (p.1, canon p.2)))).Perm
          (List.filterMap
            (fun p => if p.1 ∈ ro then none else some (p.1, strip_readonly ro p.2))
            (kvs.map fun p => (p.1, canon p.2))) :=
        (List.perm_insertionSort _ _).filterMap _
      refine (h1.map fun p => (p.1, canon p.2)).trans ?_
      rw [List.filterMap_map, List.map_filterMap, List.map_filterMap]
      refine (List.filterMap_congr fun q hq => ?_) ▸ List.Perm.refl _
      simp only [Function.comp_def]
      by_cases h : q.1 ∈ ro
      · simp [h]
      · simp [h, canon_strip_canon_kvs_mem ro kvs q hq]

theorem canon_strip_canon_mem (ro : List String) :
    ∀ (xs : List JVal) (v : JVal), v ∈ xs →
      canon (strip_readonly ro (canon v)) = canon (strip_readonly ro v)
  | w :: rest, v, hv => by
      rcases List.mem_cons.mp hv with h | hv
      · rw [h]; exact canon_strip_canon ro w
      · exact canon_strip_canon_mem ro rest v hv

theorem canon_strip_canon_kvs_mem (ro : List String) :
    ∀ (kvs : List (String × JVal)) (q : String × JVal), q ∈ kvs →
      canon (strip_readonly ro (canon q.2)) = canon (strip_readonly ro q.2)
  | (k, w) :: rest, q, hq => by
      rcases List.mem_cons.mp hq with h | hq
      · rw [h]; exact canon_strip_canon ro w
      · exact canon_strip_canon_kvs_mem ro rest q hq
end

/-- Python-equal values strip to Python-equal values. -/
theorem canon_strip_congr {a b : JVal} (ro : List String)
    (h : canon a = canon b) :
    canon (strip_readonly ro a) = canon (strip_readonly ro b) := by
  rw [← canon_strip_canon ro a, h, canon_strip_canon ro b]

theorem pruneKVs_fixed : ∀ {l : List (String × JVal)}, pruneKVs l = l →
    ∀ p ∈ l, p.2 ≠ .null ∧ prune_unset p.2 = p.2
  | [], _, p, hp => absurd hp (List.not_mem_nil p)
  | (k, v) :: rest, h, p, hp => by
      rw [pruneKVs] at h
      by_cases hv : v = .null
      · rw [if_pos hv] at h
        have hlen : (pruneKVs rest).length ≤ rest.length := by
          rw [pruneKVs_eq_filterMap]; exact List.length_filterMap_le _ _
        have hl := congrArg List.length h
        simp only [List.length_cons] at hl
        exact absurd hl (by omega)
      · rw [if_neg hv] at h
        obtain ⟨h1, h2⟩ := List.cons_eq_cons.mp h
        have hval : prune_unset v = v := congrArg Prod.snd h1
        rcases List.mem_cons.mp hp with hpe | hp
        · rw [hpe]; exact ⟨hv, hval⟩
        · exact pruneKVs_fixed h2 p hp

/-- Members of a prune-fixed dict are non-null and prune-fixed. -/
theorem prune_fixed_members {kvs : List (String × JVal)}
    (h : prune_unset (.obj kvs) = .obj kvs) :
    ∀ p ∈ kvs, p.2 ≠ .null ∧ prune_unset p.2 = p.2 := by
  rw [prune_unset] at h
  exact pruneKVs_fixed (JVal.obj.injEq .. ▸ h)

theorem stripKVs_fixed (ro : List String) :
    ∀ {l : List (String × JVal)}, stripKVs ro l = l →
      ∀ p ∈ l, p.1 ∉ ro ∧ strip_readonly ro p.2 = p.2
  | [], _, p, hp => absurd hp (List.not_mem_nil p)
  | (k, v) :: rest, h, p, hp => by
      rw [stripKVs] at h
      by_cases hk : k ∈ ro
      · rw [if_pos hk] at h
        have hlen : (stripKVs ro rest).length ≤ rest.length := by
          rw [stripKVs_eq_filterMap]; exact List.length_filterMap_le _ _
        have hl := congrArg List.length h
        simp only [List.length_cons] at hl
        exact absurd hl (by omega)
      · rw [if_neg hk] at h
        obtain ⟨h1, h2⟩ := List.cons_eq_cons.mp h
        have hval : strip_readonly ro v = v := congrArg Prod.snd h1
        rcases List.mem_cons.mp hp with hpe | hp
        · rw [hpe]; exact ⟨hk, hval⟩
        · exact stripKVs_fixed ro h2 p hp

/-- Members of a strip-fixed dict have non-readonly keys and strip-fixed
values. -/
theorem strip_fixed_members {ro : List String} {kvs : List (String × JVal)}
    (h : strip_readonly ro (.obj kvs) = .obj kvs) :
    ∀ p ∈ kvs, p.1 ∉ ro ∧ strip_readonly ro p.2 = p.2 := by
  rw [strip_readonly] at h
  exact stripKVs_fixed ro (JVal.obj.injEq .. ▸ h)

theorem canon_eq_null {r : JVal} (h : canon r = .null) : r = .null := by
  cases r <;> simp_all [canon]

theorem canon_eq_num {r : JVal} {n : Int} (h : canon r = .num n) :
    r = .num n := by
  cases r <;> simp_all [canon]

theorem canon_eq_str {r : JVal} {s : String} (h : canon r = .str s) :
    r = .str s := by
  cases r <;> simp_all [canon]

@[simp]
theorem exceptBind_ok {ε α β : Type} (a : α) (f : α → Except ε β) :
    (Except.ok a >>= f) = f a := rfl

@[simp]
theorem exceptBind_error {ε α β : Type} (e : ε) (f : α → Except ε β) :
    ((Except.error e : Except ε α) >>= f) = Except.error e := rfl

theorem pyOrElse_obj (kvs : List (String × JVal)) :
    pyOrElse (.obj kvs) (.obj []) = .obj kvs := by
  cases kvs <;> simp [pyOrElse, pyTruthy]

theorem null_not_sat : ∀ (v : JVal), prune_unset v = v → v ≠ .null →
    sat .null v = false
  | .null, _, hne => absurd rfl hne
  | .num n, _, _ => by simp [sat, canon]
  | .str s, _, _ => by simp [sat, canon]
  | .arr xs, _, _ => by simp [sat, canon]
  | .obj [], _, _ => by simp [sat, canon]
  | .obj ((k, v') :: rest), hp, _ => by
      have hm := prune_fixed_members hp (k, v') (by simp)
      simp only [sat, satKVs, jget]
      rw [null_not_sat v' hm.2 hm.1]
      rfl

theorem lookup_stripKVs {ro : List String} {k : String} (hk : k ∉ ro) :
    ∀ (l : List (String × JVal)),
      List.lookup k (stripKVs ro l) =
        (List.lookup k l).map (strip_readonly ro)
  | [] => rfl
  | (k0, v0) :: rest => by
      rw [stripKVs]
      by_cases h0 : k0 ∈ ro
      · rw [if_pos h0]
        have hne : k ≠ k0 := fun he => hk (he ▸ h0)
        rw [lookup_stripKVs hk rest]
        simp [List.lookup, beq_false_of_ne hne]
      · rw [if_neg h0]
        by_cases he : k = k0
        · subst he; simp [List.lookup]
        · simp [List.lookup, beq_false_of_ne he, lookup_stripKVs hk rest]

theorem jget_strip {ro : List String} {k : String} (hk : k ∉ ro) :
    ∀ (r : JVal),
      jget (strip_readonly ro r) k = strip_readonly ro (jget r k)
  | .null => rfl
  | .num _ => rfl
  | .str _ => rfl
  | .arr xs => by simp [jget, strip_readonly]
  | .obj kvs => by
      show (List.lookup k (stripKVs ro kvs)).getD .null =
        strip_readonly ro ((List.lookup k kvs).getD .null)
      rw [lookup_stripKVs hk kvs]
      cases List.lookup k kvs <;> simp [strip_readonly]

mutual
theorem sat_strip (ro : List String) : ∀ (d r : JVal),
    prune_unset d = d → strip_readonly ro d = d → sat r d = true →
      sat (strip_readonly ro r) d = true
  | .null, r, _, hst, hsat => by
      simp only [sat, decide_eq_true_eq] at hsat ⊢
      rw [canon_strip_congr ro hsat, hst]
  | .num _, r, _, hst, hsat => by
      simp only [sat, decide_eq_true_eq] at hsat ⊢
      rw [canon_strip_congr ro hsat, hst]
  | .str _, r, _, hst, hsat => by
      simp only [sat, decide_eq_true_eq] at hsat ⊢
      rw [canon_strip_congr ro hsat, hst]
  | .arr _, r, _, hst, hsat => by
      simp only [sat, decide_eq_true_eq] at hsat ⊢
      rw [canon_strip_congr ro hsat, hst]
  | .obj [], r, _, hst, hsat => by
      simp only [sat, decide_eq_true_eq] at hsat ⊢
      rw [canon_strip_congr ro hsat, hst]
  | .obj ((k0, v0) :: rest), r, hp, hst, hsat => by
      simp only [sat] at hsat ⊢
      exact sat_strip_kvs ro ((k0, v0) :: rest) r
        (prune_fixed_members hp) (strip_fixed_members hst) hsat

theorem sat_strip_kvs (ro : List String) : ∀ (kvs : List (String × JVal))
    (r : JVal),
    (∀ q ∈ kvs, q.2 ≠ .null ∧ prune_unset q.2 = q.2) →
    (∀ q ∈ kvs, q.1 ∉ ro ∧ strip_readonly ro q.2 = q.2) →
    satKVs r kvs = true → satKVs (strip_readonly ro r) kvs = true
  | [], _, _, _, _ => rfl
  | (k, v) :: rest, r, hp, hs, hsat => by
      rw [satKVs, Bool.and_eq_true] at hsat ⊢
      obtain ⟨h1, h2⟩ := hsat
      have hpm := hp (k, v) (by simp)
      have hsm := hs (k, v) (by simp)
      refine ⟨?_, ?_⟩
      · rw [jget_strip hsm.1]
        exact sat_strip ro v (jget r k) hpm.2 hsm.2 h1
      · exact sat_strip_kvs ro rest r
          (fun q hq => hp q (by simp [hq])) (fun q hq => hs q (by simp [hq])) h2
end

mutual
/-- A satisfied, pruned desired value yields a null subset diff. -/
theorem sat_subset_none (olp : List String) : ∀ (d r : JVal) (p : List String),
    prune_unset d = d → sat r d = true → subset_diff olp r d p = .ok .null
  | .null, r, p, _, _ => by simp [subset_diff]
  | .num n, r, p, _, hsat => by
      simp only [sat, decide_eq_true_eq] at hsat
      simp only [subset_diff]
      rw [if_pos (canon_eq_num hsat)]
  | .str s, r, p, _, hsat => by
      simp only [sat, decide_eq_true_eq] at hsat
      simp only [subset_diff]
      rw [if_pos (canon_eq_str hsat)]
  | .arr xs, r, p, _, hsat => by
      simp only [sat, decide_eq_true_eq] at hsat
      rw [subset_diff, if_pos (canon_norm_congr olp p hsat)]
  | .obj [], r, p, _, _ => by simp [subset_diff, subsetKVs]
  | .obj ((k0, v0) :: rest), r, p, hprune, hsat => by
      simp only [sat] at hsat
      rw [subset_diff,
        sat_subsetKVs_none olp ((k0, v0) :: rest) r p
          (prune_fixed_members hprune) hsat]
      simp

theorem sat_subsetKVs_none (olp : List String) :
    ∀ (kvs : List (String × JVal)) (r : JVal) (p : List String),
      (∀ q ∈ kvs, q.2 ≠ .null ∧ prune_unset q.2 = q.2) →
      satKVs r kvs = true →
      subsetKVs olp (pyOrElse r (.obj [])) kvs p = .ok []
  | [], _, _, _, _ => rfl
  | (k, v) :: rest, r, p, hm, hsat => by
      rw [satKVs, Bool.and_eq_true] at hsat
      obtain ⟨h1, h2⟩ := hsat
      have hmem := hm (k, v) (by simp)
      cases r with
      | obj kvs' =>
          rw [pyOrElse_obj, subsetKVs]
          have hget : dictGet (.obj kvs') k = .ok (jget (.obj kvs') k) := rfl
          rw [hget]
          simp only [exceptBind_ok]
          rw [sat_subset_none olp v (jget (.obj kvs') k) (p ++ [k]) hmem.2 h1]
          simp only [exceptBind_ok]
          have htail := sat_subsetKVs_none olp rest (.obj kvs') p
            (fun q hq => hm q (by simp [hq])) h2
          rw [pyOrElse_obj] at htail
          rw [htail]
          simp
      | null =>
          rw [show jget JVal.null k = .null from rfl,
            null_not_sat v hmem.2 hmem.1] at h1
          exact absurd h1 (by simp)
      | num n =>
          rw [show jget (JVal.num n) k = .null from rfl,
            null_not_sat v hmem.2 hmem.1] at h1
          exact absurd h1 (by simp)
      | str s =>
          rw [show jget (JVal.str s) k = .null from rfl,
            null_not_sat v hmem.2 hmem.1] at h1
          exact absurd h1 (by simp)
      | arr xs =>
          rw [show jget (JVal.arr xs) k = .null from rfl,
            null_not_sat v hmem.2 hmem.1] at h1
          exact absurd h1 (by simp)
end

mutual
/-- A satisfied, pruned desired value reports no before/after change. -/
theorem sat_bb_none (olp : List String) : ∀ (d r : JVal) (p : List String),
    prune_unset d = d → sat r d = true → bbHelper olp r d p = .ok (.null, .null)
  | .null, r, p, _, hsat => by
      simp only [sat, decide_eq_true_eq] at hsat
      simp only [bbHelper]
      rw [if_pos (canon_eq_null hsat)]
  | .num n, r, p, _, hsat => by
      simp only [sat, decide_eq_true_eq] at hsat
      simp only [bbHelper]
      rw [if_pos (canon_eq_num hsat)]
  | .str s, r, p, _, hsat => by
      simp only [sat, decide_eq_true_eq] at hsat
      simp only [bbHelper]
      rw [if_pos (canon_eq_str hsat)]
  | .arr xs, r, p, _, hsat => by
      simp only [sat, decide_eq_true_eq] at hsat
      rw [bbHelper, if_pos (canon_norm_congr olp p hsat)]
  | .obj [], r, p, _, _ => by simp [bbHelper, bbKVs]
  | .obj ((k0, v0) :: rest), r, p, hprune, hsat => by
      simp only [sat] at hsat
      rw [bbHelper,
        sat_bbKVs_none olp ((k0, v0) :: rest) r p
          (prune_fixed_members hprune) hsat]
      simp

theorem sat_bbKVs_none (olp : List String) :
    ∀ (kvs : List (String × JVal)) (r : JVal) (p : List String),
      (∀ q ∈ kvs, q.2 ≠ .null ∧ prune_unset q.2 = q.2) →
      satKVs r kvs = true →
      bbKVs olp (pyOrElse r (.obj [])) kvs p = .ok ([], [])
  | [], _, _, _, _ => rfl
  | (k, v) :: rest, r, p, hm, hsat => by
      rw [satKVs, Bool.and_eq_true] at hsat
      obtain ⟨h1, h2⟩ := hsat
      have hmem := hm (k, v) (by simp)
      cases r with
      | obj kvs' =>
          rw [pyOrElse_obj, bbKVs]
          have hget : dictGet (.obj kvs') k = .ok (jget (.obj kvs') k) := rfl
          rw [hget]
          simp only [exceptBind_ok]
          rw [sat_bb_none olp v (jget (.obj kvs') k) (p ++ [k]) hmem.2 h1]
          simp only [exceptBind_ok]
          have htail := sat_bbKVs_none olp rest (.obj kvs') p
            (fun q hq => hm q (by simp [hq])) h2
          rw [pyOrElse_obj] at htail
          rw [htail]
          simp
      | null =>
          rw [show jget JVal.null k = .null from rfl,
            null_not_sat v hmem.2 hmem.1] at h1
          exact absurd h1 (by simp)
      | num n =>
          rw [show jget (JVal.num n) k = .null from rfl,
            null_not_sat v hmem.2 hmem.1] at h1
          exact absurd h1 (by simp)
      | str s =>
          rw [show jget (JVal.str s) k = .null from rfl,
            null_not_sat v hmem.2 hmem.1] at h1
          exact absurd h1 (by simp)
      | arr xs =>
          rw [show jget (JVal.arr xs) k = .null from rfl,
            null_not_sat v hmem.2 hmem.1] at h1
          exact absurd h1 (by simp)
end

/-- A satisfied, pruned desired object yields a null before/after diff. -/
theorem sat_build_none (olp : List String) {d r : JVal} (p : List String)
    (hprune : prune_unset d = d) (hsat : sat r d = true) :
    build_before_after olp r d p = .ok .null := by
  rw [build_before_after, sat_bb_none olp d r p hprune hsat]
  simp

/-- The no-diff present path of the Reconciler: a found record satisfying
the (pruned, readonly-free) desired object reports `changed=false`, the
stripped current record, and performs no mutation. -/
theorem ensure_present_nodiff (checkMode : Bool) (records : List JVal)
    (selector : JVal) (dkvs : List (String × JVal)) (idKey : String)
    (cR uR R : JVal)
    (hprune : prune_unset (.obj dkvs) = .obj dkvs)
    (hro : strip_readonly READONLY_KEYS (.obj dkvs) = .obj dkvs)
    (hname : pyTruthy (jget (.obj dkvs) "name") = true)
    (hfind : find_unique_or_fail records
      (prune_unset (pyOrElse selector (.obj []))) (jget (.obj dkvs) "name") =
        .ok R)
    (hR : pyTruthy R = true)
    (hsat : sat R (.obj dkvs) = true) :
    ensure_idempotent_state checkMode records selector (.obj dkvs) "present"
      idKey cR uR =
      (.ok ⟨false, .null, strip_readonly READONLY_KEYS R, R⟩, [.fetch]) := by
  have hbuild : build_before_after [] (strip_readonly READONLY_KEYS R)
      (.obj dkvs) [] = .ok .null :=
    sat_build_none [] [] hprune
      (sat_strip READONLY_KEYS (.obj dkvs) R hprune hro hsat)
  have hget : dictGet (.obj dkvs) "name" = .ok (jget (.obj dkvs) "name") := rfl
  simp only [ensure_idempotent_state, pyOrElse_obj, hprune, hget, hname,
    hfind, hbuild, hR]
  simp
  intro h
  exact absurd h (by decide)

/-- C1 (amended).  Idempotence of reconciliation: for every resource
record `R` and pruned desired object `D` (null-valued entries never
participate in diffing, per the Desired Object invariant) such that `R`
satisfies `D` (for every path present in `D`, `R`'s value at that path
Python-equals `D`'s), `subset_diff R D` returns `None`; and — provided
additionally that `D` contains no read-only keys at any depth and has a
non-empty `name`, and that the matcher yields `R` — ensure_idempotent_state
with state `present` on such a pair reports `changed=false`, returns the
read-only-stripped current record, and performs no mutation.  (Without the
read-only-key proviso the second half is false: see the counterexample.) -/
theorem C1_idempotent_reconciliation :
    (∀ (olp : List String) (R D : JVal),
        prune_unset D = D → sat R D = true →
        subset_diff olp R D [] = .ok .null) ∧
    (∀ (checkMode : Bool) (records : List JVal) (selector : JVal)
        (dkvs : List (String × JVal)) (idKey : String) (cR uR R : JVal),
        prune_unset (.obj dkvs) = .obj dkvs →
        strip_readonly READONLY_KEYS (.obj dkvs) = .obj dkvs →
        pyTruthy (jget (.obj dkvs) "name") = true →
        find_unique_or_fail records (prune_unset (pyOrElse selector (.obj [])))
          (jget (.obj dkvs) "name") = .ok R →
        pyTruthy R = true →
        sat R (.obj dkvs) = true →
        ensure_idempotent_state checkMode records selector (.obj dkvs)
          "present" idKey cR uR =
          (.ok ⟨false, .null, strip_readonly READONLY_KEYS R, R⟩, [.fetch])) :=
  ⟨fun olp R D hp hs => sat_subset_none olp D R [] hp hs,
   fun cm recs sel dkvs ik cR uR R h1 h2 h3 h4 h5 h6 =>
     ensure_present_nodiff cm recs sel dkvs ik cR uR R h1 h2 h3 h4 h5 h6⟩

/-- C1 counterexample: `R = D = {"name": "s1", "id": "5"}`.  `R` satisfies
`D` (`D` is pruned, and even `subset_diff R D` is `None`), yet because the
Reconciler diffs against the read-only-stripped current record, it reports
`changed=true` and issues one update mutation — refuting the claim that
reconciliation is a no-op whenever `R` satisfies `D`. -/
theorem C1_counterexample :
    prune_unset (.obj [("name", .str "s1"), ("id", .str "5")]) =
      .obj [("name", .str "s1"), ("id", .str "5")] ∧
    sat (.obj [("name", .str "s1"), ("id", .str "5")])
      (.obj [("name", .str "s1"), ("id", .str "5")]) = true ∧
    subset_diff [] (.obj [("name", .str "s1"), ("id", .str "5")])
      (.obj [("name", .str "s1"), ("id", .str "5")]) [] = .ok .null ∧
    (ensure_idempotent_state false
        [.obj [("name", .str "s1"), ("id", .str "5")]] (.obj [])
        (.obj [("name", .str "s1"), ("id", .str "5")]) "present" "id"
        .null (.obj [("name", .str "s1"), ("id", .str "5")])).1 =
      .ok ⟨true,
        .obj [("before", .obj [("id", .null)]),
              ("after", .obj [("id", .str "5")])],
        .obj [("name", .str "s1")],
        .obj [("name", .str "s1"), ("id", .str "5")]⟩ ∧
    ((ensure_idempotent_state false
        [.obj [("name", .str "s1"), ("id", .str "5")]] (.obj [])
        (.obj [("name", .str "s1"), ("id", .str "5")]) "present" "id"
        .null (.obj [("name", .str "s1"), ("id", .str "5")])).2.filter
          Eff.isMutation).length = 1 := by
  refine ⟨by decide, by decide, by decide, by decide, by decide⟩

/-- C1 witness: both halves of the amended claim applied at
`R = {"name": "s1", "city": "P"}`, `D = {"name": "s1"}`. -/
theorem C1_witness :
    (prune_unset (.obj [("name", .str "s1")]) = .obj [("name", .str "s1")] ∧
     sat (.obj [("name", .str "s1"), ("city", .str "P")])
       (.obj [("name", .str "s1")]) = true ∧
     subset_diff [] (.obj [("name", .str "s1"), ("city", .str "P")])
       (.obj [("name", .str "s1")]) [] = .ok .null) ∧
    ensure_idempotent_state false
        [.obj [("name", .str "s1"), ("city", .str "P")]] (.obj [])
        (.obj [("name", .str "s1")]) "present" "id" .null .null =
      (.ok ⟨false, .null, .obj [("name", .str "s1"), ("city", .str "P")],
        .obj [("name", .str "s1"), ("city", .str "P")]⟩, [.fetch]) := by
  constructor
  · exact ⟨by decide, by decide,
      C1_idempotent_reconciliation.1 []
        (.obj [("name", .str "s1"), ("city", .str "P")])
        (.obj [("name", .str "s1")]) (by decide) (by decide)⟩
  · have h := C1_idempotent_reconciliation.2 false
      [.obj [("name", .str "s1"), ("city", .str "P")]] (.obj [])
      [("name", .str "s1")] "id" .null .null
      (.obj [("name", .str "s1"), ("city", .str "P")])
      (by decide) (by decide) (by decide) (by decide) (by decide) (by decide)
    rw [h]
    have : strip_readonly READONLY_KEYS
        (.obj [("name", .str "s1"), ("city", .str "P")]) =
        .obj [("name", .str "s1"), ("city", .str "P")] := by decide
    rw [this]

/-- C9.  Null pruning: `prune_unset` removes exactly the mapping entries
whose value is null, recursing into nested mappings and sequences,
preserves explicitly empty mappings and sequences, and (being a pure total
Lean function over the value model) does not mutate its input and never
fails; `prune({"a": 1, "b": None, "c": {"d": None}})` equals
`{"a": 1, "c": {}}`. -/
theorem C9_prune_unset :
    prune_unset (.obj [("a", .num 1), ("b", .null), ("c", .obj [("d", .null)])]) =
      .obj [("a", .num 1), ("c", .obj [])] ∧
    (∀ (kvs : List (String × JVal)) (k : String) (w : JVal),
        (k, w) ∈ pruneKVs kvs ↔
          ∃ v, (k, v) ∈ kvs ∧ v ≠ .null ∧ w = prune_unset v) ∧
    (∀ (kvs : List (String × JVal)),
        prune_unset (.obj kvs) = .obj (pruneKVs kvs)) ∧
    (∀ (xs : List JVal), prune_unset (.arr xs) = .arr (xs.map prune_unset)) ∧
    prune_unset (.obj []) = .obj [] ∧ prune_unset (.arr []) = .arr [] := by
  refine ⟨by decide, ?_, fun kvs => by rw [prune_unset],
    fun xs => by rw [prune_unset, pruneList_eq_map], by decide, by decide⟩
  intro kvs k w
  rw [pruneKVs_eq_filterMap, List.mem_filterMap]
  constructor
  · rintro ⟨⟨k', v⟩, hm, heq⟩
    by_cases h : v = .null
    · simp [h] at heq
    · simp only [h, if_false, Option.some.injEq, Prod.mk.injEq] at heq
      exact ⟨v, heq.1 ▸ hm, h, heq.2.symm⟩
  · rintro ⟨v, hm, hv, rfl⟩
    exact ⟨(k, v), hm, by simp [hv]⟩

theorem map_eq_map_iff_forall2 {α β : Type} (f : α → β) :
    ∀ (cs ds : List α),
      (cs.map f = ds.map f) ↔ List.Forall₂ (fun c d => f c = f d) cs ds
  | [], [] => by simp
  | [], _ :: _ => by simp
  | _ :: _, [] => by simp
  | c :: cs, d :: ds => by
      simp [map_eq_map_iff_forall2 f cs ds]

/-- C3.  List comparison semantics of the Differ: when the path is in the
ordered-list path set the two sequences are compared element-by-element in
order after recursive normalization; otherwise they are compared as
multisets of canonical normalized forms (sorting both by the deterministic
canonical key); in particular `{"tags": ["b","a"]}` versus
`{"tags": ["a","b"]}` diffs to `None` without `tags` in the set and to a
non-null diff with it. -/
theorem C3_list_comparison :
    (∀ (olp p : List String) (cs ds : List JVal),
        is_list_ordered p olp = true →
        (subset_diff olp (.arr cs) (.arr ds) p = .ok .null ↔
          List.Forall₂ (fun c d =>
            canon (normalize_for_compare olp c p) =
              canon (normalize_for_compare olp d p)) cs ds)) ∧
    (∀ (olp p : List String) (cs ds : List JVal),
        is_list_ordered p olp = false →
        (subset_diff olp (.arr cs) (.arr ds) p = .ok .null ↔
          (↑(cs.map fun c => canon (normalize_for_compare olp c p)) :
              Multiset JVal) =
            ↑(ds.map fun d => canon (normalize_for_compare olp d p)))) ∧
    subset_diff [] (.obj [("tags", .arr [.str "b", .str "a"])])
      (.obj [("tags", .arr [.str "a", .str "b"])]) [] = .ok .null ∧
    subset_diff ["tags"] (.obj [("tags", .arr [.str "b", .str "a"])])
      (.obj [("tags", .arr [.str "a", .str "b"])]) [] =
      .ok (.obj [("tags", .arr [.str "a", .str "b"])]) := by
  refine ⟨?_, ?_, by decide, by decide⟩
  · intro olp p cs ds hord
    rw [subset_diff, norm_arr, norm_arr]
    simp only [hord, if_true]
    rw [canon_arr, canon_arr, List.map_map, List.map_map]
    simp only [Function.comp_def]
    constructor
    · intro h
      have h2 := Except.ok.inj h
      split at h2
      · rename_i hc
        exact (map_eq_map_iff_forall2 _ cs ds).mp (JVal.arr.inj hc)
      · exact absurd h2 (by simp)
    · intro h
      rw [if_pos (congrArg JVal.arr ((map_eq_map_iff_forall2 _ cs ds).mpr h))]
  · intro olp p cs ds hord
    rw [subset_diff, norm_arr, norm_arr]
    simp only [hord, Bool.false_eq_true, if_false]
    rw [canon_arr, canon_arr, map_canon_insertionSort, map_canon_insertionSort,
      List.map_map, List.map_map]
    simp only [Function.comp_def]
    rw [Multiset.coe_eq_coe]
    constructor
    · intro h
      have h2 := Except.ok.inj h
      split at h2
      · rename_i hc
        exact insertionSort_eq_iff_perm.mp (JVal.arr.inj hc)
      · exact absurd h2 (by simp)
    · intro h
      rw [if_pos (congrArg JVal.arr (insertionSort_perm_congr h))]

/-- C3 witness: both comparison modes of the theorem applied at the
`tags` example. -/
theorem C3_witness :
    is_list_ordered ["tags"] ["tags"] = true ∧
    is_list_ordered ["tags"] [] = false ∧
    (subset_diff ["tags"] (.arr [.str "b", .str "a"]) (.arr [.str "a", .str "b"])
        ["tags"] = .ok .null ↔
      List.Forall₂ (fun c d =>
        canon (normalize_for_compare ["tags"] c ["tags"]) =
          canon (normalize_for_compare ["tags"] d ["tags"]))
        [.str "b", .str "a"] [.str "a", .str "b"]) ∧
    (subset_diff [] (.arr [.str "b", .str "a"]) (.arr [.str "a", .str "b"])
        ["tags"] = .ok .null ↔
      (↑(([(JVal.str "b"), .str "a"]).map fun c =>
          canon (normalize_for_compare [] c ["tags"])) : Multiset JVal) =
        ↑(([(JVal.str "a"), .str "b"]).map fun d =>
          canon (normalize_for_compare [] d ["tags"]))) :=
  ⟨by decide, by decide,
   C3_list_comparison.1 ["tags"] ["tags"] [.str "b", .str "a"]
     [.str "a", .str "b"] (by decide),
   C3_list_comparison.2.1 [] ["tags"] [.str "b", .str "a"]
     [.str "a", .str "b"] (by decide)⟩

theorem dictGet_error {cur : JVal} {k : String} {e : Abort}
    (h : dictGet cur k = .error e) : e = .typeErr := by
  cases cur <;> simp_all [dictGet]

mutual
theorem subset_diff_err (olp : List String) : ∀ (d cur : JVal)
    (p : List String) (e : Abort),
    subset_diff olp cur d p = .error e → e = .typeErr
  | .obj kvs, cur, p, e, h => by
      rw [subset_diff] at h
      cases hs : subsetKVs olp (pyOrElse cur (.obj [])) kvs p with
      | error e' =>
          rw [hs] at h
          simp only [exceptBind_error, Except.error.injEq] at h
          exact h ▸ subsetKVs_err olp kvs (pyOrElse cur (.obj [])) p e' hs
      | ok l => rw [hs] at h; simp at h
  | .arr ds, cur, p, e, h => by rw [subset_diff] at h; simp at h
  | .null, cur, p, e, h => by simp only [subset_diff] at h; simp at h
  | .num n, cur, p, e, h => by simp only [subset_diff] at h; simp at h
  | .str s, cur, p, e, h => by simp only [subset_diff] at h; simp at h

theorem subsetKVs_err (olp : List String) : ∀ (kvs : List (String × JVal))
    (cur : JVal) (p : List String) (e : Abort),
    subsetKVs olp cur kvs p = .error e → e = .typeErr
  | [], _, _, _, h => by simp [subsetKVs] at h
  | (k, v) :: rest, cur, p, e, h => by
      rw [subsetKVs] at h
      cases hg : dictGet cur k with
      | error e' =>
          rw [hg] at h
          simp only [exceptBind_error, Except.error.injEq] at h
          exact h ▸ dictGet_error hg
      | ok cv =>
          rw [hg] at h
          simp only [exceptBind_ok] at h
          cases hs : subset_diff olp cv v (p ++ [k]) with
          | error e' =>
              rw [hs] at h
              simp only [exceptBind_error, Except.error.injEq] at h
              exact h ▸ subset_diff_err olp v cv (p ++ [k]) e' hs
          | ok sub =>
              rw [hs] at h
              simp only [exceptBind_ok] at h
              cases ht : subsetKVs olp cur rest p with
              | error e' =>
                  rw [ht] at h
                  simp only [exceptBind_error, Except.error.injEq] at h
                  exact h ▸ subsetKVs_err olp rest cur p e' ht
              | ok tail => rw [ht] at h; simp at h
end

mutual
theorem bbHelper_err (olp : List String) : ∀ (d cur : JVal)
    (p : List String) (e : Abort),
    bbHelper olp cur d p = .error e → e = .typeErr
  | .obj kvs, cur, p, e, h => by
      rw [bbHelper] at h
      cases hs : bbKVs olp (pyOrElse cur (.obj [])) kvs p with
      | error e' =>
          rw [hs] at h
          simp only [exceptBind_error, Except.error.injEq] at h
          exact h ▸ bbKVs_err olp kvs (pyOrElse cur (.obj [])) p e' hs
      | ok l =>
          rw [hs] at h
          obtain ⟨bs, az⟩ := l
          simp only [exceptBind_ok] at h
          split at h <;> simp at h
  | .arr ds, cur, p, e, h => by
      rw [bbHelper] at h; split at h <;> simp at h
  | .null, cur, p, e, h => by
      simp only [bbHelper] at h; split at h <;> simp at h
  | .num n, cur, p, e, h => by
      simp only [bbHelper] at h; split at h <;> simp at h
  | .str s, cur, p, e, h => by
      simp only [bbHelper] at h; split at h <;> simp at h

theorem bbKVs_err (olp : List String) : ∀ (kvs : List (String × JVal))
    (cur : JVal) (p : List String) (e : Abort),
    bbKVs olp cur kvs p = .error e → e = .typeErr
  | [], _, _, _, h => by simp [bbKVs] at h
  | (k, v) :: rest, cur, p, e, h => by
      rw [bbKVs] at h
      cases hg : dictGet cur k with
      | error e' =>
          rw [hg] at h
          simp only [exceptBind_error, Except.error.injEq] at h
          exact h ▸ dictGet_error hg
      | ok cv =>
          rw [hg] at h
          simp only [exceptBind_ok] at h
          cases hs : bbHelper olp cv v (p ++ [k]) with
          | error e' =>
              rw [hs] at h
              simp only [exceptBind_error, Except.error.injEq] at h
              exact h ▸ bbHelper_err olp v cv (p ++ [k]) e' hs
          | ok pr =>
              rw [hs] at h
              obtain ⟨cb, ca⟩ := pr
              simp only [exceptBind_ok] at h
              cases ht : bbKVs olp cur rest p with
              | error e' =>
                  rw [ht] at h
                  simp only [exceptBind_error, Except.error.injEq] at h
                  exact h ▸ bbKVs_err olp rest cur p e' ht
              | ok tl =>
                  rw [ht] at h
                  obtain ⟨bt, st⟩ := tl
                  simp only [exceptBind_ok] at h
                  split at h <;> simp at h
end

theorem subset_obj_err_iff (olp : List String) (cur : JVal)
    (kvs : List (String × JVal)) (p : List String) :
    subset_diff olp cur (.obj kvs) p = .error .typeErr ↔
      subsetKVs olp (pyOrElse cur (.obj [])) kvs p = .error .typeErr := by
  rw [subset_diff]
  cases hs : subsetKVs olp (pyOrElse cur (.obj [])) kvs p with
  | error e => obtain rfl := subsetKVs_err olp kvs _ p e hs; simp
  | ok l => simp

theorem bb_obj_err_iff (olp : List String) (cur : JVal)
    (kvs : List (String × JVal)) (p : List String) :
    bbHelper olp cur (.obj kvs) p = .error .typeErr ↔
      bbKVs olp (pyOrElse cur (.obj [])) kvs p = .error .typeErr := by
  rw [bbHelper]
  cases hs : bbKVs olp (pyOrElse cur (.obj [])) kvs p with
  | error e => obtain rfl := bbKVs_err olp kvs _ p e hs; simp
  | ok l =>
      obtain ⟨bs, az⟩ := l
      simp only [exceptBind_ok]
      constructor
      · intro hcon; split at hcon <;> simp at hcon
      · intro hcon; simp at hcon

mutual
theorem subset_bb_rel (olp : List String) : ∀ (d cur : JVal) (p : List String),
    d ≠ .null → prune_unset d = d →
    ((subset_diff olp cur d p = .error .typeErr ↔
        bbHelper olp cur d p = .error .typeErr) ∧
     (∀ (x : JVal) (pr : JVal × JVal),
        subset_diff olp cur d p = .ok x → bbHelper olp cur d p = .ok pr →
        (x = .null ↔ pr = (.null, .null))))
  | .null, _, _, hne, _ => absurd rfl hne
  | .num n, cur, p, _, _ => by
      constructor
      · by_cases hc : cur = .num n <;> simp [subset_diff, bbHelper, hc]
      · intro x pr hx hpr
        by_cases hc : cur = .num n
        · simp only [subset_diff, bbHelper, hc, if_pos, Except.ok.injEq] at hx hpr
          simp [← hx, ← hpr]
        · simp only [subset_diff, bbHelper, hc, if_neg, Except.ok.injEq,
            ite_false] at hx hpr
          simp [← hx, ← hpr]
  | .str s, cur, p, _, _ => by
      constructor
      · by_cases hc : cur = .str s <;> simp [subset_diff, bbHelper, hc]
      · intro x pr hx hpr
        by_cases hc : cur = .str s
        · simp only [subset_diff, bbHelper, hc, if_pos, Except.ok.injEq] at hx hpr
          simp [← hx, ← hpr]
        · simp only [subset_diff, bbHelper, hc, if_neg, Except.ok.injEq,
            ite_false] at hx hpr
          simp [← hx, ← hpr]
  | .arr ds, cur, p, _, _ => by
      constructor
      · by_cases hc : canon (normalize_for_compare olp cur p) =
            canon (normalize_for_compare olp (.arr ds) p) <;>
          simp [subset_diff, bbHelper, hc]
      · intro x pr hx hpr
        by_cases hc : canon (normalize_for_compare olp cur p) =
            canon (normalize_for_compare olp (.arr ds) p)
        · simp only [subset_diff, bbHelper, hc, if_pos, Except.ok.injEq] at hx hpr
          simp [← hx, ← hpr]
        · simp only [subset_diff, bbHelper, hc, if_neg, Except.ok.injEq,
            ite_false] at hx hpr
          simp [← hx, ← hpr]
  | .obj kvs, cur, p, _, hp => by
      have krel := subsetKVs_bbKVs_rel olp kvs (pyOrElse cur (.obj [])) p
        (prune_fixed_members hp)
      constructor
      · rw [subset_obj_err_iff, bb_obj_err_iff]
        exact krel.1
      · intro x pr hx hpr
        rw [subset_diff] at hx
        rw [bbHelper] at hpr
        cases hs : subsetKVs olp (pyOrElse cur (.obj [])) kvs p with
        | error e => rw [hs] at hx; simp at hx
        | ok l =>
            rw [hs] at hx
            simp only [exceptBind_ok, Except.ok.injEq] at hx
            cases hb : bbKVs olp (pyOrElse cur (.obj [])) kvs p with
            | error e => rw [hb] at hpr; simp at hpr
            | ok tl =>
                obtain ⟨bs, az⟩ := tl
                rw [hb] at hpr
                simp only [exceptBind_ok] at hpr
                have hiff := krel.2 l (bs, az) hs hb
                constructor
                · intro hxn
                  rw [← hx] at hxn
                  have hl : l = [] := by
                    by_cases hl : l.isEmpty
                    · exact List.isEmpty_iff.mp hl
                    · rw [if_neg hl] at hxn; simp at hxn
                  have hbs : bs = [] := hiff.mp hl
                  rw [if_pos (by simp [hbs])] at hpr
                  simp only [Except.ok.injEq] at hpr
                  exact hpr.symm
                · intro hprn
                  rw [hprn] at hpr
                  have hbs : bs = [] := by
                    by_cases hbs : bs.isEmpty
                    · exact List.isEmpty_iff.mp hbs
                    · rw [if_neg hbs] at hpr
                      simp only [Except.ok.injEq, Prod.mk.injEq] at hpr
                      exact absurd hpr.1 (by simp)
                  have hl : l = [] := hiff.mpr hbs
                  rw [← hx, if_pos (by simp [hl])]

theorem subsetKVs_bbKVs_rel (olp : List String) :
    ∀ (kvs : List (String × JVal)) (cur : JVal) (p : List String),
    (∀ q ∈ kvs, q.2 ≠ .null ∧ prune_unset q.2 = q.2) →
    ((subsetKVs olp cur kvs p = .error .typeErr ↔
        bbKVs olp cur kvs p = .error .typeErr) ∧
     (∀ (l : List (String × JVal))
        (pr : List (String × JVal) × List (String × JVal)),
        subsetKVs olp cur kvs p = .ok l → bbKVs olp cur kvs p = .ok pr →
        (l = [] ↔ pr.1 = [])))
  | [], cur, p, _ => by
      constructor
      · simp [subsetKVs, bbKVs]
      · intro l pr hl hpr
        simp only [subsetKVs, bbKVs, Except.ok.injEq] at hl hpr
        simp [← hl, ← hpr]
  | (k, v) :: rest, cur, p, hm => by
      have hmem := hm (k, v) (by simp)
      have hrest : ∀ q ∈ rest, q.2 ≠ .null ∧ prune_unset q.2 = q.2 :=
        fun q hq => hm q (by simp [hq])
      constructor
      · rw [subsetKVs, bbKVs]
        cases hg : dictGet cur k with
        | error e => obtain rfl := dictGet_error hg; simp
        | ok cv =>
            simp only [exceptBind_ok]
            cases hs : subset_diff olp cv v (p ++ [k]) with
            | error e =>
                obtain rfl := subset_diff_err olp v cv _ _ hs
                have hb := ((subset_bb_rel olp v cv (p ++ [k]) hmem.1
                  hmem.2).1).mp hs
                simp [hb]
            | ok sub =>
                cases hb : bbHelper olp cv v (p ++ [k]) with
                | error e =>
                    obtain rfl := bbHelper_err olp v cv _ _ hb
                    have hcon := ((subset_bb_rel olp v cv (p ++ [k]) hmem.1
                      hmem.2).1).mpr hb
                    rw [hs] at hcon
                    simp at hcon
                | ok pr0 =>
                    obtain ⟨cb, ca⟩ := pr0
                    simp only [exceptBind_ok]
                    cases ht : subsetKVs olp cur rest p with
                    | error e =>
                        obtain rfl := subsetKVs_err olp rest cur p _ ht
                        have hb2 := ((subsetKVs_bbKVs_rel olp rest cur p
                          hrest).1).mp ht
                        simp [hb2]
                    | ok tl =>
                        cases hb2 : bbKVs olp cur rest p with
                        | error e =>
                            obtain rfl := bbKVs_err olp rest cur p _ hb2
                            have hcon := ((subsetKVs_bbKVs_rel olp rest cur p
                              hrest).1).mpr hb2
                            rw [ht] at hcon
                            simp at hcon
                        | ok tl2 =>
                            obtain ⟨bt, st⟩ := tl2
                            simp only [exceptBind_ok]
                            constructor
                            · intro hcon; simp at hcon
                            · intro hcon; split at hcon <;> simp at hcon
      · intro l pr hl hpr
        rw [subsetKVs] at hl
        rw [bbKVs] at hpr
        cases hg : dictGet cur k with
        | error e => rw [hg] at hl; simp at hl
        | ok cv =>
            rw [hg] at hl hpr
            simp only [exceptBind_ok] at hl hpr
            cases hs : subset_diff olp cv v (p ++ [k]) with
            | error e => rw [hs] at hl; simp at hl
            | ok sub =>
                rw [hs] at hl
                simp only [exceptBind_ok] at hl
                cases hb : bbHelper olp cv v (p ++ [k]) with
                | error e => rw [hb] at hpr; simp at hpr
                | ok pr0 =>
                    obtain ⟨cb, ca⟩ := pr0
                    rw [hb] at hpr
                    simp only [exceptBind_ok] at hpr
                    cases ht : subsetKVs olp cur rest p with
                    | error e => rw [ht] at hl; simp at hl
                    | ok tl =>
                        rw [ht] at hl
                        simp only [exceptBind_ok, Except.ok.injEq] at hl
                        cases hb2 : bbKVs olp cur rest p with
                        | error e => rw [hb2] at hpr; simp at hpr
                        | ok tl2 =>
                            obtain ⟨bt, st⟩ := tl2
                            rw [hb2] at hpr
                            simp only [exceptBind_ok] at hpr
                            have helem := (subset_bb_rel olp v cv (p ++ [k])
                              hmem.1 hmem.2).2 sub (cb, ca) hs hb
                            have htail := (subsetKVs_bbKVs_rel olp rest cur p
                              hrest).2 tl (bt, st) ht hb2
                            constructor
                            · intro hln
                              rw [← hl] at hln
                              have hsub : sub = .null := by
                                by_cases hq : sub = .null
                                · exact hq
                                · rw [if_neg hq] at hln; simp at hln
                              have htl : tl = [] := by
                                rw [if_pos hsub] at hln; exact hln
                              have hcbca : (cb, ca) = (.null, .null) :=
                                helem.mp hsub
                              have hcb : cb = .null :=
                                congrArg Prod.fst hcbca
                              have hca : ca = .null :=
                                congrArg Prod.snd hcbca
                              rw [if_pos ⟨hcb, hca⟩] at hpr
                              obtain rfl := Except.ok.inj hpr
                              exact htail.mp htl
                            · intro hprn
                              have hcbca : cb = .null ∧ ca = .null := by
                                by_cases hq : cb = .null ∧ ca = .null
                                · exact hq
                                · rw [if_neg hq] at hpr
                                  obtain rfl := Except.ok.inj hpr
                                  simp at hprn
                              rw [if_pos hcbca] at hpr
                              obtain rfl := Except.ok.inj hpr
                              have hbt : bt = [] := hprn
                              have hsub : sub = .null :=
                                helem.mpr (by
                                  rw [Prod.mk.injEq]
                                  exact ⟨hcbca.1, hcbca.2⟩)
                              rw [← hl, if_pos hsub]
                              exact htail.mpr hbt
end

/-- C10.  Agreement of the two diff shapes: for every current value and
every desired mapping that is a fixed point of `prune_unset` (no
null-valued entry at any depth) and every ordered-list path set,
`build_before_after` returns `None` exactly when `subset_diff` returns
`None`, and the two functions fail (raise) on exactly the same inputs. -/
theorem C10_diff_agreement (olp : List String) (current : JVal)
    (kvs : List (String × JVal)) (hp : prune_unset (.obj kvs) = .obj kvs) :
    ((∃ e, subset_diff olp current (.obj kvs) [] = .error e) ↔
      (∃ e, build_before_after olp current (.obj kvs) [] = .error e)) ∧
    (subset_diff olp current (.obj kvs) [] = .ok .null ↔
      build_before_after olp current (.obj kvs) [] = .ok .null) := by
  have rel := subset_bb_rel olp (.obj kvs) current [] (by simp) hp
  constructor
  · constructor
    · rintro ⟨e, he⟩
      obtain rfl := subset_diff_err olp _ current [] e he
      have hb := rel.1.mp he
      refine ⟨.typeErr, ?_⟩
      rw [build_before_after, hb]
      rfl
    · rintro ⟨e, he⟩
      rw [build_before_after] at he
      cases hb : bbHelper olp current (.obj kvs) [] with
      | error e' =>
          obtain rfl := bbHelper_err olp _ current [] e' hb
          exact ⟨.typeErr, rel.1.mpr hb⟩
      | ok pr =>
          obtain ⟨b, a⟩ := pr
          rw [hb] at he
          simp only [exceptBind_ok] at he
          split at he <;> simp at he
  · constructor
    · intro hx
      cases hb : bbHelper olp current (.obj kvs) [] with
      | error e' =>
          obtain rfl := bbHelper_err olp _ current [] e' hb
          have hcon := rel.1.mpr hb
          rw [hx] at hcon; simp at hcon
      | ok pr =>
          obtain ⟨b, a⟩ := pr
          have hba := rel.2 .null (b, a) hx hb
          have hpair : (b, a) = (JVal.null, JVal.null) := hba.mp rfl
          rw [build_before_after, hb]
          simp only [exceptBind_ok]
          have hb0 : b = .null := congrArg Prod.fst hpair
          have ha0 : a = .null := congrArg Prod.snd hpair
          rw [if_pos ⟨hb0, ha0⟩]
    · intro hbn
      rw [build_before_after] at hbn
      cases hb : bbHelper olp current (.obj kvs) [] with
      | error e' => rw [hb] at hbn; simp at hbn
      | ok pr =>
          obtain ⟨b, a⟩ := pr
          rw [hb] at hbn
          simp only [exceptBind_ok] at hbn
          have hba : b = .null ∧ a = .null := by
            by_cases hq : b = .null ∧ a = .null
            · exact hq
            · rw [if_neg hq] at hbn; simp at hbn
          cases hs : subset_diff olp current (.obj kvs) [] with
          | error e' =>
              obtain rfl := subset_diff_err olp _ current [] e' hs
              have hcon := rel.1.mp hs
              rw [hb] at hcon; simp at hcon
          | ok x =>
              have hx := (rel.2 x (b, a) hs hb).mpr
                (by rw [Prod.mk.injEq]; exact hba)
              rw [hx]

/-- C10 witness: the agreement applied at
`current = 7` (a truthy non-dict, so both functions raise) and at
`current = {"name": "a"}` with desired `{"name": "b"}`. -/
theorem C10_witness :
    (prune_unset (.obj [("name", .str "b")]) = .obj [("name", .str "b")] ∧
     ((∃ e, subset_diff [] (.num 7) (.obj [("name", .str "b")]) [] = .error e) ↔
       (∃ e, build_before_after [] (.num 7) (.obj [("name", .str "b")]) [] =
         .error e))) ∧
    (subset_diff [] (.obj [("name", .str "a")]) (.obj [("name", .str "b")]) [] =
        .ok .null ↔
      build_before_after [] (.obj [("name", .str "a")])
        (.obj [("name", .str "b")]) [] = .ok .null) :=
  ⟨⟨by decide,
    (C10_diff_agreement [] (.num 7) [("name", .str "b")] (by decide)).1⟩,
   (C10_diff_agreement [] (.obj [("name", .str "a")]) [("name", .str "b")]
     (by decide)).2⟩

/-- Mutation-effect count of one reconciliation call: exactly one mutating
request when the call succeeds with `changed=true` outside check mode, and
zero in every other case (check mode, no change needed, or any abort). -/
theorem ensure_mutation_count (cm : Bool) (records : List JVal)
    (sel dObj : JVal) (state idKey : String) (cR uR : JVal) :
    (((ensure_idempotent_state cm records sel dObj state idKey cR uR).2.filter
        Eff.isMutation).length) =
      (match (ensure_idempotent_state cm records sel dObj state idKey cR uR).1
        with
      | .ok r => if r.changed = true ∧ cm = false then 1 else 0
      | .error _ => 0) := by
  unfold ensure_idempotent_state
  cases hg : dictGet (prune_unset (pyOrElse dObj (.obj []))) "name" with
  | error e => simp [hg, Eff.isMutation]
  | ok name =>
    simp only [hg]
    by_cases hn : pyTruthy name = true
    case neg => simp [hn, Eff.isMutation]
    case pos =>
    simp only [hn]
    cases hf : find_unique_or_fail records
        (prune_unset (pyOrElse sel (.obj []))) name with
    | error e => simp [hf, Eff.isMutation]
    | ok current =>
      simp only [hf]
      by_cases hst : state = "absent"
      · simp only [hst, if_true]
        by_cases hc : pyTruthy current = true
        · simp only [hc]
          by_cases hcm : cm = true
          · simp [hcm, Eff.isMutation]
          · simp only [hcm]
            cases hgi : dictGet current idKey with
            | error e =>
                simp only [hgi]
                simp [Bool.not_eq_true] at hcm
                simp [hcm, Eff.isMutation]
            | ok objId =>
                simp only [hgi]
                simp [Bool.not_eq_true] at hcm
                simp [hcm, Eff.isMutation]
        · simp [hc, Eff.isMutation]
      · simp only [if_neg hst]
        by_cases hc : pyTruthy current = true
        · simp only [hc]
          cases hb : build_before_after []
              (strip_readonly READONLY_KEYS current)
              (prune_unset (pyOrElse dObj (.obj []))) [] with
          | error e => simp [hb, Eff.isMutation]
          | ok diffStruct =>
            simp only [hb]
            by_cases hd : pyTruthy diffStruct = true
            · simp only [hd]
              by_cases hcm : cm = true
              · simp [hcm, Eff.isMutation]
              · simp only [hcm]
                cases hgi : dictGet current idKey with
                | error e =>
                    simp only [hgi]
                    simp [Bool.not_eq_true] at hcm
                    simp [hcm, Eff.isMutation]
                | ok objId =>
                    simp only [hgi]
                    simp [Bool.not_eq_true] at hcm
                    simp [hcm, Eff.isMutation]
            · simp [hd, Eff.isMutation]
        · simp only [hc]
          by_cases hcm : cm = true
          · simp [hcm, Eff.isMutation]
          · simp [Bool.not_eq_true] at hcm
            simp [hcm, Eff.isMutation]

/-- C2: every `ensure_idempotent_state` call performs exactly one mutating
network request (create, update or delete) when check mode is off and a
change is required (`changed=true`), and zero mutating requests in every
other case — in check mode, when no change is needed, and on any abort;
in particular `state="absent"` with no current record found performs zero
mutations and returns `changed=false`. -/
theorem C2_side_effect_count (cm : Bool) (records : List JVal)
    (sel dObj : JVal) (state idKey : String) (cR uR : JVal) :
    ((((ensure_idempotent_state cm records sel dObj state idKey cR uR).2.filter
        Eff.isMutation).length) =
      (match (ensure_idempotent_state cm records sel dObj state idKey cR uR).1
        with
      | .ok r => if r.changed = true ∧ cm = false then 1 else 0
      | .error _ => 0)) ∧
    (∀ name : JVal,
      dictGet (prune_unset (pyOrElse dObj (.obj []))) "name" = .ok name →
      pyTruthy name = true →
      find_unique_or_fail records (prune_unset (pyOrElse sel (.obj []))) name
        = .ok .null →
      ensure_idempotent_state cm records sel dObj "absent" idKey cR uR
        = (.ok ⟨false, .null, .null, .null⟩, [.fetch])) := by
  refine ⟨ensure_mutation_count cm records sel dObj state idKey cR uR, ?_⟩
  intro name hg hn hf
  unfold ensure_idempotent_state
  simp only [hg, hn, hf]
  simp [pyTruthy]

/-- Closed instance of C2: a concrete delete-of-missing run returns
`changed=false` with only the read-only fetch effect. -/
theorem C2_witness :
    ensure_idempotent_state false [] .null (.obj [("name", .str "s1")])
        "absent" "id" .null .null
      = (.ok ⟨false, .null, .null, .null⟩, [.fetch]) :=
  (C2_side_effect_count false [] .null (.obj [("name", .str "s1")])
      "absent" "id" .null .null).2
    (.str "s1") (by decide) (by decide) (by decide)

/-- C5: whenever more than one fetched record matches the selector (or the
name fallback when the selector is empty), `find_unique_or_fail` fails with
an ambiguity error carrying the first at-most-5 matches restricted to the
preview field projection together with the total match count, rather than
silently picking one; and any aborted reconciliation call performs zero
mutating requests. -/
theorem C5_ambiguity (records : List JVal) (selector nameFb : JVal)
    (cs : List JVal) :
    (find_candidates records selector nameFb = .ok cs → 2 ≤ cs.length →
      find_unique_or_fail records selector nameFb
          = .error (.ambiguous ((cs.take 5).map previewRecord) cs.length) ∧
        ((cs.take 5).map previewRecord).length ≤ 5) ∧
    (∀ (cm : Bool) (sel dObj : JVal) (state idKey : String) (cR uR : JVal)
        (e : Abort),
      (ensure_idempotent_state cm records sel dObj state idKey cR uR).1
          = .error e →
      ((ensure_idempotent_state cm records sel dObj state idKey cR uR).2.filter
          Eff.isMutation) = []) := by
  constructor
  · intro hc hlen
    constructor
    · rcases cs with _ | ⟨a, _ | ⟨b, rest⟩⟩
      · simp at hlen
      · simp at hlen
      · simp [find_unique_or_fail, hc]
    · simp only [List.length_map, List.length_take]
      omega
  · intro cm sel dObj state idKey cR uR e h
    have hm := ensure_mutation_count cm records sel dObj state idKey cR uR
    rw [h] at hm
    exact List.length_eq_zero.mp hm

/-- Closed instance of C5: three records all matching the name fallback
produce the ambiguity abort with all three previews and `count = 3`. -/
theorem C5_witness :
    find_unique_or_fail
        [.obj [("id", .num 1), ("name", .str "s")],
         .obj [("id", .num 2), ("name", .str "s")],
         .obj [("id", .num 3), ("name", .str "s")]] .null (.str "s")
      = .error (.ambiguous
          [.obj [("id", .num 1), ("name", .str "s")],
           .obj [("id", .num 2), ("name", .str "s")],
           .obj [("id", .num 3), ("name", .str "s")]] 3) := by
  have h := (C5_ambiguity
      [.obj [("id", .num 1), ("name", .str "s")],
       .obj [("id", .num 2), ("name", .str "s")],
       .obj [("id", .num 3), ("name", .str "s")]] .null (.str "s")
      [.obj [("id", .num 1), ("name", .str "s")],
       .obj [("id", .num 2), ("name", .str "s")],
       .obj [("id", .num 3), ("name", .str "s")]]).1 (by decide) (by decide)
  exact h.1.trans (by decide)

theorem lookup_eq_none_of_not_mem (xs : List (String × JVal)) (k : String)
    (h : k ∉ xs.map Prod.fst) : List.lookup k xs = none := by
  induction xs with
  | nil => rfl
  | cons p rest ih =>
    obtain ⟨k0, v0⟩ := p
    have h1 : k ≠ k0 := fun he => h (by simp [he])
    have h2 : k ∉ rest.map Prod.fst := fun hm => h (by simp [hm])
    simp [List.lookup, beq_false_of_ne h1, ih h2]

theorem lookup_setFirst_eq (xs : List (String × JVal)) (k : String)
    (v : JVal) :
    List.lookup k (setFirst xs k v) =
      match List.lookup k xs with
      | some _ => some v
      | none => none := by
  induction xs with
  | nil => rfl
  | cons p rest ih =>
    obtain ⟨k0, v0⟩ := p
    by_cases h : k0 = k
    · subst h; simp [setFirst, List.lookup]
    · simp [setFirst, h, List.lookup, beq_false_of_ne (Ne.symm h), ih]

theorem lookup_setFirst_ne (xs : List (String × JVal)) (k k' : String)
    (v : JVal) (hne : k' ≠ k) :
    List.lookup k' (setFirst xs k v) = List.lookup k' xs := by
  induction xs with
  | nil => rfl
  | cons p rest ih =>
    obtain ⟨k0, v0⟩ := p
    by_cases h : k0 = k
    · subst h; simp [setFirst, List.lookup, beq_false_of_ne hne]
    · by_cases h2 : k' = k0
      · subst h2; simp [setFirst, h, List.lookup]
      · simp [setFirst, h, List.lookup, beq_false_of_ne h2, ih]

theorem lookup_append_single (xs : List (String × JVal)) (k k0 : String)
    (v : JVal) :
    List.lookup k (xs ++ [(k0, v)]) =
      match List.lookup k xs with
      | some w => some w
      | none => if k = k0 then some v else none := by
  induction xs with
  | nil =>
    by_cases h : k = k0
    · subst h; simp [List.lookup]
    · simp [List.lookup, beq_false_of_ne h, h]
  | cons p rest ih =>
    obtain ⟨k1, v1⟩ := p
    by_cases h : k = k1
    · subst h; simp [List.lookup]
    · simp [List.lookup, beq_false_of_ne h, ih]

theorem lookup_mergeKVs (ys xs : List (String × JVal)) (k : String)
    (hnd : (ys.map Prod.fst).Nodup) :
    List.lookup k (mergeKVs xs ys) =
      match List.lookup k ys, List.lookup k xs with
      | some w, some v => some (deep_merge v w)
      | some w, none => some w
      | none, _ => List.lookup k xs := by
  induction ys generalizing xs with
  | nil => cases h : List.lookup k xs <;> simp [mergeKVs, List.lookup, h]
  | cons p rest ih =>
    obtain ⟨k0, w0⟩ := p
    simp only [List.map_cons, List.nodup_cons] at hnd
    obtain ⟨hnotin, hrest⟩ := hnd
    simp only [mergeKVs]
    cases hx : List.lookup k0 xs with
    | some old =>
      rw [ih (setFirst xs k0 (deep_merge old w0)) hrest]
      by_cases hk : k = k0
      · subst hk
        rw [lookup_eq_none_of_not_mem rest k hnotin, lookup_setFirst_eq, hx]
        simp [List.lookup]
      · rw [lookup_setFirst_ne _ _ _ _ hk]
        simp [List.lookup, beq_false_of_ne hk]
    | none =>
      rw [ih (xs ++ [(k0, w0)]) hrest]
      by_cases hk : k = k0
      · subst hk
        rw [lookup_eq_none_of_not_mem rest k hnotin, lookup_append_single, hx]
        simp [List.lookup]
      · rw [lookup_append_single]
        simp only [List.lookup, beq_false_of_ne hk]
        cases hxs : List.lookup k xs <;>
          cases hr : List.lookup k rest <;> simp [hk]

theorem deep_merge_overlay_wins (v w : JVal) (hw : w ≠ .null)
    (hno : ∀ xs ys : List (String × JVal), ¬(v = .obj xs ∧ w = .obj ys)) :
    deep_merge v w = w := by
  cases v <;> cases w <;>
    first
      | exact absurd rfl hw
      | exact absurd ⟨rfl, rfl⟩ (hno _ _)
      | simp [deep_merge]

/-- C6: with a current record found and a non-null diff outside check mode,
the update payload is the deep merge of the read-only-stripped current
record with the pruned desired object, and the call returns `changed=true`
with the diff and the stripped updated record; the merge gives every key
of the overlay its value (recursively merged when both sides carry it, so
the desired side wins at every conflicting leaf) while keys absent from
the overlay retain their current values; at a conflicting leaf (overlay
non-null and not both sides dicts) the overlay value replaces the base
value outright. -/
theorem C6_update_merge (records : List JVal) (sel dObj : JVal)
    (state idKey : String) (cR uR : JVal) :
    (∀ (name current diffStruct objId : JVal),
      dictGet (prune_unset (pyOrElse dObj (.obj []))) "name" = .ok name →
      pyTruthy name = true →
      find_unique_or_fail records (prune_unset (pyOrElse sel (.obj []))) name
        = .ok current →
      pyTruthy current = true →
      state ≠ "absent" →
      build_before_after [] (strip_readonly READONLY_KEYS current)
          (prune_unset (pyOrElse dObj (.obj []))) [] = .ok diffStruct →
      pyTruthy diffStruct = true →
      dictGet current idKey = .ok objId →
      ensure_idempotent_state false records sel dObj state idKey cR uR
        = (.ok ⟨true, diffStruct, strip_readonly READONLY_KEYS uR, current⟩,
           [.fetch, .update objId
             (deep_merge (strip_readonly READONLY_KEYS current)
               (prune_unset (pyOrElse dObj (.obj []))))])) ∧
    (∀ (xs ys : List (String × JVal)) (k : String),
      (ys.map Prod.fst).Nodup →
      List.lookup k (mergeKVs xs ys) =
        match List.lookup k ys, List.lookup k xs with
        | some w, some v => some (deep_merge v w)
        | some w, none => some w
        | none, _ => List.lookup k xs) ∧
    (∀ v w : JVal, w ≠ .null →
      (∀ xs ys : List (String × JVal), ¬(v = .obj xs ∧ w = .obj ys)) →
      deep_merge v w = w) := by
  refine ⟨?_, fun xs ys k h => lookup_mergeKVs ys xs k h,
    fun v w hw hno => deep_merge_overlay_wins v w hw hno⟩
  intro name current diffStruct objId hg hn hf hc hst hb hd hgi
  unfold ensure_idempotent_state
  simp only [hg, hn, hf, hc, hb, hd, hgi, if_neg hst]
  simp

/-- Closed instance of C6: updating a record whose `city` differs merges
the desired object over the stripped current record (desired `city` wins,
`name` retained) and returns `changed=true` with the diff and the stripped
update response. -/
theorem C6_witness :
    ensure_idempotent_state false
        [.obj [("id", .num 7), ("name", .str "s"), ("city", .str "a")]]
        .null (.obj [("name", .str "s"), ("city", .str "b")])
        "present" "id" .null
        (.obj [("id", .num 7), ("name", .str "s"), ("city", .str "b")])
      = (.ok ⟨true,
          .obj [("before", .obj [("city", .str "a")]),
                ("after", .obj [("city", .str "b")])],
          .obj [("name", .str "s"), ("city", .str "b")],
          .obj [("id", .num 7), ("name", .str "s"), ("city", .str "a")]⟩,
         [.fetch, .update (.num 7)
            (.obj [("name", .str "s"), ("city", .str "b")])]) := by
  have h := (C6_update_merge
      [.obj [("id", .num 7), ("name", .str "s"), ("city", .str "a")]]
      .null (.obj [("name", .str "s"), ("city", .str "b")])
      "present" "id" .null
      (.obj [("id", .num 7), ("name", .str "s"), ("city", .str "b")])).1
    (.str "s")
    (.obj [("id", .num 7), ("name", .str "s"), ("city", .str "a")])
    (.obj [("before", .obj [("city", .str "a")]),
           ("after", .obj [("city", .str "b")])])
    (.num 7)
    (by decide) (by decide) (by decide) (by decide) (by decide) (by decide)
    (by decide) (by decide)
  refine h.trans ?_
  have h1 : strip_readonly READONLY_KEYS
      (.obj [("id", .num 7), ("name", .str "s"), ("city", .str "b")])
      = JVal.obj [("name", .str "s"), ("city", .str "b")] := by decide
  have h2 : strip_readonly READONLY_KEYS
      (.obj [("id", .num 7), ("name", .str "s"), ("city", .str "a")])
      = JVal.obj [("name", .str "s"), ("city", .str "a")] := by decide
  have h3 : prune_unset (pyOrElse
        (.obj [("name", .str "s"), ("city", .str "b")]) (.obj []))
      = JVal.obj [("name", .str "s"), ("city", .str "b")] := by decide
  rw [h1, h2, h3]
  simp [deep_merge, mergeKVs, setFirst, List.lookup]

theorem lookup_mem (xs : List (String × JVal)) (k : String) (v : JVal)
    (h : List.lookup k xs = some v) : (k, v) ∈ xs := by
  induction xs with
  | nil => cases h
  | cons p rest ih =>
    obtain ⟨k0, v0⟩ := p
    by_cases hk : k = k0
    · subst hk
      simp [List.lookup] at h
      simp [h]
    · simp only [List.lookup, beq_false_of_ne hk] at h
      exact List.mem_cons_of_mem _ (ih h)

theorem stripKVs_append (ro : List String) (a b : List (String × JVal)) :
    stripKVs ro (a ++ b) = stripKVs ro a ++ stripKVs ro b := by
  induction a with
  | nil => rfl
  | cons p rest ih =>
    obtain ⟨k, v⟩ := p
    by_cases hk : k ∈ ro <;> simp [stripKVs, hk, ih]

theorem stripKVs_setFirst (ro : List String) (acc : List (String × JVal))
    (k : String) (v' : JVal) (hacc : stripKVs ro acc = acc)
    (hv : strip_readonly ro v' = v') :
    stripKVs ro (setFirst acc k v') = setFirst acc k v' := by
  induction acc with
  | nil => rfl
  | cons p rest ih =>
    obtain ⟨k0, v0⟩ := p
    have hk0 : k0 ∉ ro := (stripKVs_fixed ro hacc (k0, v0) (by simp)).1
    have hv0 : strip_readonly ro v0 = v0 :=
      (stripKVs_fixed ro hacc (k0, v0) (by simp)).2
    have hrest : stripKVs ro rest = rest := by
      rw [stripKVs, if_neg hk0] at hacc
      exact (List.cons_eq_cons.mp hacc).2
    by_cases hk : k0 = k
    · subst hk
      simp [setFirst, stripKVs, hk0, hv, hrest]
    · simp [setFirst, hk, stripKVs, hk0, hv0, ih hrest]

theorem strip_merge_strong (ro : List String) :
    ∀ n : Nat,
      (∀ b a : JVal, sizeOf b ≤ n → strip_readonly ro a = a →
        strip_readonly ro b = b →
        strip_readonly ro (deep_merge a b) = deep_merge a b) ∧
      (∀ ys acc : List (String × JVal), sizeOf ys ≤ n →
        stripKVs ro acc = acc → stripKVs ro ys = ys →
        stripKVs ro (mergeKVs acc ys) = mergeKVs acc ys) := by
  intro n
  induction n using Nat.strong_induction_on with
  | _ n ih =>
    constructor
    · intro b a hsz ha hb
      cases b with
      | null => cases a <;> simp only [deep_merge] <;> first | exact ha | rfl
      | num m => cases a <;> simp only [deep_merge] <;> exact hb
      | str s => cases a <;> simp only [deep_merge] <;> exact hb
      | arr xs => cases a <;> simp only [deep_merge] <;> exact hb
      | obj ys =>
        cases a with
        | null => simp only [deep_merge]; exact hb
        | num m => simp only [deep_merge]; exact hb
        | str s => simp only [deep_merge]; exact hb
        | arr xs => simp only [deep_merge]; exact hb
        | obj xs =>
          have hxs : stripKVs ro xs = xs := by
            simp only [strip_readonly] at ha
            exact (JVal.obj.injEq _ _).mp ha
          have hys : stripKVs ro ys = ys := by
            simp only [strip_readonly] at hb
            exact (JVal.obj.injEq _ _).mp hb
          have hlt : sizeOf ys < n := by
            simp only [JVal.obj.sizeOf_spec] at hsz
            omega
          simp only [deep_merge, strip_readonly]
          rw [(ih (sizeOf ys) hlt).2 ys xs le_rfl hxs hys]
    · intro ys acc hsz hacc hys
      cases ys with
      | nil => simp only [mergeKVs]; exact hacc
      | cons p rest =>
        obtain ⟨k, v⟩ := p
        have hk : k ∉ ro := (stripKVs_fixed ro hys (k, v) (by simp)).1
        have hv : strip_readonly ro v = v :=
          (stripKVs_fixed ro hys (k, v) (by simp)).2
        have hrest : stripKVs ro rest = rest := by
          rw [stripKVs, if_neg hk] at hys
          exact (List.cons_eq_cons.mp hys).2
        have hszrest : sizeOf rest < n := by
          simp only [List.cons.sizeOf_spec, Prod.mk.sizeOf_spec] at hsz
          omega
        have hszv : sizeOf v < n := by
          simp only [List.cons.sizeOf_spec, Prod.mk.sizeOf_spec] at hsz
          omega
        simp only [mergeKVs]
        cases hx : List.lookup k acc with
        | some old =>
          have hold : strip_readonly ro old = old :=
            (stripKVs_fixed ro hacc (k, old) (lookup_mem acc k old hx)).2
          have hmerge := (ih (sizeOf v) hszv).1 v old le_rfl hold hv
          exact (ih (sizeOf rest) hszrest).2 rest _ le_rfl
            (stripKVs_setFirst ro acc k _ hacc hmerge) hrest
        | none =>
          have happ : stripKVs ro (acc ++ [(k, v)]) = acc ++ [(k, v)] := by
            rw [stripKVs_append, hacc]
            simp [stripKVs, hk, hv]
          exact (ih (sizeOf rest) hszrest).2 rest _ le_rfl happ hrest

theorem strip_deep_merge (ro : List String) (a b : JVal)
    (ha : strip_readonly ro a = a) (hb : strip_readonly ro b = b) :
    strip_readonly ro (deep_merge a b) = deep_merge a b :=
  (strip_merge_strong ro (sizeOf b)).1 b a le_rfl ha hb

mutual
theorem strip_idem (ro : List String) :
    ∀ v : JVal, strip_readonly ro (strip_readonly ro v) = strip_readonly ro v
  | .null => rfl
  | .num _ => rfl
  | .str _ => rfl
  | .arr xs => by
      simp only [strip_readonly]
      rw [stripList_idem ro xs]
  | .obj kvs => by
      simp only [strip_readonly]
      rw [stripKVs_idem ro kvs]

theorem stripKVs_idem (ro : List String) :
    ∀ l : List (String × JVal), stripKVs ro (stripKVs ro l) = stripKVs ro l
  | [] => rfl
  | (k, v) :: rest => by
      by_cases hk : k ∈ ro
      · rw [show stripKVs ro ((k, v) :: rest) = stripKVs ro rest from by
          rw [stripKVs, if_pos hk]]
        exact stripKVs_idem ro rest
      · rw [show stripKVs ro ((k, v) :: rest)
            = (k, strip_readonly ro v) :: stripKVs ro rest from by
          rw [stripKVs, if_neg hk]]
        rw [show stripKVs ro ((k, strip_readonly ro v) :: stripKVs ro rest)
            = (k, strip_readonly ro (strip_readonly ro v))
                :: stripKVs ro (stripKVs ro rest) from by
          rw [stripKVs, if_neg hk]]
        rw [strip_idem ro v, stripKVs_idem ro rest]

theorem stripList_idem (ro : List String) :
    ∀ l : List JVal, stripList ro (stripList ro l) = stripList ro l
  | [] => rfl
  | v :: rest => by
      rw [show stripList ro (v :: rest)
          = strip_readonly ro v :: stripList ro rest from by rw [stripList]]
      rw [show stripList ro (strip_readonly ro v :: stripList ro rest)
          = strip_readonly ro (strip_readonly ro v)
              :: stripList ro (stripList ro rest) from by rw [stripList]]
      rw [strip_idem ro v, stripList_idem ro rest]
end

/-- Refutation of C4 as stated: a desired object that itself carries the
read-only key `id` is sent verbatim as the create payload, so a read-only
key does leave the client. -/
theorem C4_counterexample :
    (ensure_idempotent_state false [] .null
        (.obj [("name", .str "s"), ("id", .num 9)]) "present" "id"
        .null .null).2
      = [.fetch, .create (.obj [("name", .str "s"), ("id", .num 9)])] ∧
    "id" ∈ READONLY_KEYS := by
  constructor
  · decide
  · decide

/-- C4 amended: provided the pruned desired object itself carries no
read-only key at any depth (stripping fixes it), every create or update
payload that leaves the client is free of read-only keys at any depth:
the create payload is the pruned desired object, and the update payload
merges the read-only-stripped current record with it, both strip-fixed. -/
theorem C4_readonly_payloads (cm : Bool) (records : List JVal)
    (sel dObj : JVal) (state idKey : String) (cR uR : JVal)
    (hd : strip_readonly READONLY_KEYS (prune_unset (pyOrElse dObj (.obj [])))
      = prune_unset (pyOrElse dObj (.obj []))) :
    ∀ e ∈ (ensure_idempotent_state cm records sel dObj state idKey cR uR).2,
      (∀ p, e = .create p → strip_readonly READONLY_KEYS p = p) ∧
      (∀ i p, e = .update i p → strip_readonly READONLY_KEYS p = p) := by
  unfold ensure_idempotent_state
  cases hg : dictGet (prune_unset (pyOrElse dObj (.obj []))) "name" with
  | error e0 => intro e he; simp [hg] at he
  | ok name =>
    simp only [hg]
    by_cases hn : pyTruthy name = true
    case neg =>
      intro e he
      simp [hn] at he
    case pos =>
    simp only [hn]
    cases hf : find_unique_or_fail records
        (prune_unset (pyOrElse sel (.obj []))) name with
    | error e0 =>
      intro e he
      simp [hf] at he
      subst he
      exact ⟨fun p hp => (nomatch hp), fun i p hp => (nomatch hp)⟩
    | ok current =>
      simp only [hf]
      by_cases hst : state = "absent"
      · simp only [hst, if_true]
        by_cases hc : pyTruthy current = true
        · simp only [hc]
          by_cases hcm : cm = true
          · intro e he
            simp [hcm] at he
            subst he
            exact ⟨fun p hp => (nomatch hp), fun i p hp => (nomatch hp)⟩
          · simp only [hcm]
            cases hgi : dictGet current idKey with
            | error e0 =>
              intro e he
              simp [hgi, Bool.not_eq_true] at hcm
              simp [hcm] at he
              subst he
              exact ⟨fun p hp => (nomatch hp), fun i p hp => (nomatch hp)⟩
            | ok objId =>
              intro e he
              simp [hgi, Bool.not_eq_true] at hcm
              simp [hcm, hgi] at he
              rcases he with he | he <;> subst he <;>
                exact ⟨fun p hp => (nomatch hp), fun i p hp => (nomatch hp)⟩
        · intro e he
          simp [hc] at he
          subst he
          exact ⟨fun p hp => (nomatch hp), fun i p hp => (nomatch hp)⟩
      · simp only [if_neg hst]
        by_cases hc : pyTruthy current = true
        · simp only [hc]
          cases hb : build_before_after []
              (strip_readonly READONLY_KEYS current)
              (prune_unset (pyOrElse dObj (.obj []))) [] with
          | error e0 =>
            intro e he
            simp [hb] at he
            subst he
            exact ⟨fun p hp => (nomatch hp), fun i p hp => (nomatch hp)⟩
          | ok diffStruct =>
            simp only [hb]
            by_cases hdt : pyTruthy diffStruct = true
            · simp only [hdt]
              by_cases hcm : cm = true
              · intro e he
                simp [hcm] at he
                subst he
                exact ⟨fun p hp => (nomatch hp), fun i p hp => (nomatch hp)⟩
              · simp only [hcm]
                cases hgi : dictGet current idKey with
                | error e0 =>
                  intro e he
                  simp [hgi, Bool.not_eq_true] at hcm
                  simp [hcm] at he
                  subst he
                  exact ⟨fun p hp => (nomatch hp), fun i p hp => (nomatch hp)⟩
                | ok objId =>
                  intro e he
                  simp [hgi, Bool.not_eq_true] at hcm
                  simp [hcm, hgi] at he
                  rcases he with he | he <;> subst he
                  · exact ⟨fun p hp => (nomatch hp), fun i p hp => (nomatch hp)⟩
                  · refine ⟨fun p hp => (nomatch hp), fun i p hp => ?_⟩
                    obtain ⟨-, hp2⟩ := Eff.update.inj hp
                    subst hp2
                    exact strip_deep_merge READONLY_KEYS _ _
                      (strip_idem READONLY_KEYS current) hd
            · intro e he
              simp [hdt] at he
              subst he
              exact ⟨fun p hp => (nomatch hp), fun i p hp => (nomatch hp)⟩
        · simp only [hc]
          by_cases hcm : cm = true
          · intro e he
            simp [hcm] at he
            subst he
            exact ⟨fun p hp => (nomatch hp), fun i p hp => (nomatch hp)⟩
          · intro e he
            simp [Bool.not_eq_true] at hcm
            simp [hcm] at he
            rcases he with he | he <;> subst he
            · exact ⟨fun p hp => (nomatch hp), fun i p hp => (nomatch hp)⟩
            · refine ⟨fun p hp => ?_, fun i p hp => (nomatch hp)⟩
              obtain hp1 := Eff.create.inj hp
              subst hp1
              exact hd

/-- Closed instance of C4: a readonly-free desired object is sent as a
create payload that stripping leaves unchanged. -/
theorem C4_witness :
    strip_readonly READONLY_KEYS (.obj [("name", .str "s")])
      = .obj [("name", .str "s")] :=
  (C4_readonly_payloads false [] .null (.obj [("name", .str "s")])
      "present" "id" .null .null (by decide)
      (.create (.obj [("name", .str "s")])) (by decide)).1
    (.obj [("name", .str "s")]) rfl

/-- C7: when the pruned desired object's `name` is missing or empty
(falsy), `ensure_idempotent_state` aborts with the required-name input
error immediately, with an empty effect trace — no network call of any
kind is attempted — for every requested state. -/
theorem C7_name_required (cm : Bool) (records : List JVal)
    (sel dObj : JVal) (state idKey : String) (cR uR : JVal) (name : JVal)
    (hg : dictGet (prune_unset (pyOrElse dObj (.obj []))) "name" = .ok name)
    (hn : ¬pyTruthy name = true) :
    ensure_idempotent_state cm records sel dObj state idKey cR uR
      = (.error .nameRequired, []) := by
  unfold ensure_idempotent_state
  simp [hg, hn]

/-- Closed instance of C7: a desired object without `name` aborts with the
required-name error and no effects, under both `present` and `absent`. -/
theorem C7_witness :
    ensure_idempotent_state false [] .null (.obj [("city", .str "a")])
        "present" "id" .null .null = (.error .nameRequired, []) ∧
    ensure_idempotent_state false [] .null (.obj [("city", .str "a")])
        "absent" "id" .null .null = (.error .nameRequired, []) :=
  ⟨C7_name_required false [] .null (.obj [("city", .str "a")]) "present"
      "id" .null .null .null (by decide) (by decide),
   C7_name_required false [] .null (.obj [("city", .str "a")]) "absent"
      "id" .null .null .null (by decide) (by decide)⟩

theorem iterPagedFrom_pages_le (resp : Nat → JVal) (keys : List String)
    (ps : Nat) : ∀ fuel idx, (iterPagedFrom resp keys ps fuel idx).2 ≤ fuel := by
  intro fuel
  induction fuel with
  | zero => intro idx; simp [iterPagedFrom]
  | succ n ih =>
    intro idx
    simp only [iterPagedFrom]
    cases pageItems keys (resp idx) with
    | none => simp
    | some its =>
      by_cases h : its.length < ps
      · simp [h]
      · simp only [h, if_false]
        have := ih (idx + 1)
        omega

theorem pagedGetSites_adv_none :
    ∀ (fuel idx : Nat) (acc : List JVal), acc.length = idx →
      pagedGetSitesFrom
        (fun i => .obj [("sites", .arr [.null]),
                        ("totalRecords", .num ((i : Int) + 2))])
        fuel idx acc = none := by
  intro fuel
  induction fuel with
  | zero => intro idx acc h; rfl
  | succ n ih =>
    intro idx acc h
    have hs : sitesOf (JVal.obj [("sites", .arr [.null]),
        ("totalRecords", .num ((idx : Int) + 2))]) = [JVal.null] := rfl
    have ht : totalOf (JVal.obj [("sites", .arr [.null]),
        ("totalRecords", .num ((idx : Int) + 2))]) [JVal.null]
        = (idx : Int) + 2 := rfl
    simp only [pagedGetSitesFrom, hs, ht]
    rw [if_neg]
    · exact ih (idx + 1) (acc ++ [JVal.null]) (by simp [h])
    · push_neg
      refine ⟨?_, by simp⟩
      simp only [List.length_append, List.length_cons, List.length_nil, h]
      push_cast
      omega

/-- Refutation of C8 as stated: `paged_get_sites` has no page cap, and a
misbehaving pager that always returns one site while advertising
`totalRecords` two ahead of the accumulated count keeps the loop running
forever — even 1000 iterations of fuel exhaust without termination. -/
theorem C8_counterexample :
    paged_get_sites
        (fun i => .obj [("sites", .arr [.null]),
                        ("totalRecords", .num ((i : Int) + 2))]) 1000
      = none :=
  pagedGetSites_adv_none 1000 0 [] rfl

/-- C8 amended: `iter_paged` fetches at most `max_pages` pages per
iteration for every remote pager behaviour, so its page count is bounded
by the safety cap; the bound does not extend to `paged_get_sites`, whose
`while True` loop has no cap. -/
theorem C8_pagination_bound (resp : Nat → JVal) (extractKeys : List String)
    (pageSize maxPages : Nat) :
    (iter_paged resp extractKeys pageSize maxPages).2 ≤ maxPages :=
  iterPagedFrom_pages_le resp extractKeys pageSize maxPages 0
